import Mathlib

/-!
Verification development for a minimal BitTorrent client written in Rust
(crate il-pleut).  The Rust sources are embedded shallowly:

* bytes (`u8`) are modelled as `Nat`;
* `Vec<u8>` / byte slices as `List Nat`;
* `HashMap<Vec<u8>, BencodeValue>` as its canonical association list sorted
  strictly by the byte-lexicographic order on keys (`insert` overwrites, the
  list order is exactly the ascending key order that the encoder's
  `keys.sort()` iterates in);
* fallible Rust functions returning `Result`/`Option` as `Option`
  (all `ParseError` values are collapsed to `none`);
* machine integers (`i64`, `u32`, `u64`, `usize`) as `Int`/`Nat` with the
  range checks and wrapping casts written out explicitly.
-/

/-! ## Byte-level helpers -/

/-- ASCII decimal digit test (bytes 48..57). -/
def isDigit (b : Nat) : Bool := 48 ≤ b && b ≤ 57

/-- Value of a list of ASCII digit bytes, accumulated left to right,
starting from accumulator a.  This is the accumulation performed by Rust's
integer `from_str` implementations. -/
def digitsVal (a : Nat) : List Nat → Nat
  | [] => a
  | d :: ds => digitsVal (a * 10 + (d - 48)) ds

theorem digitsVal_nil (a : Nat) : digitsVal a [] = a := rfl

theorem digitsVal_cons (a d : Nat) (ds : List Nat) :
    digitsVal a (d :: ds) = digitsVal (a * 10 + (d - 48)) ds := rfl

theorem digitsVal_append (a : Nat) (l1 l2 : List Nat) :
    digitsVal a (l1 ++ l2) = digitsVal (digitsVal a l1) l2 := by
  induction l1 generalizing a with
  | nil => rfl
  | cons d ds ih =>
    show digitsVal (a * 10 + (d - 48)) (ds ++ l2) = _
    rw [ih]
    rfl

/-- Strict lexicographic order on byte strings, as produced by
`Vec<u8>: Ord` in Rust (element-wise compare, a proper prefix is smaller). -/
def bytesLt : List Nat → List Nat → Bool
  | [], [] => false
  | [], _ :: _ => true
  | _ :: _, [] => false
  | a :: as, b :: bs => if a < b then true else if b < a then false else bytesLt as bs

theorem bytesLt_irrefl (l : List Nat) : bytesLt l l = false := by
  induction l with
  | nil => rfl
  | cons a as ih => simp [bytesLt, ih]

theorem bytesLt_asymm {a b : List Nat} (h : bytesLt a b = true) :
    bytesLt b a = false := by
  induction a generalizing b with
  | nil =>
    cases b with
    | nil => simpa [bytesLt] using h
    | cons x xs => simp [bytesLt]
  | cons x xs ih =>
    cases b with
    | nil => simp [bytesLt] at h
    | cons y ys =>
      by_cases hxy : x < y
      · have : ¬ y < x := by omega
        simp [bytesLt, hxy, this]
      · by_cases hyx : y < x
        · simp [bytesLt, hxy, hyx] at h
        · have hne : ¬ x < y := hxy
          simp [bytesLt, hne, hyx] at h ⊢
          exact ih h

theorem bytesLt_total (a b : List Nat) :
    bytesLt a b = true ∨ a = b ∨ bytesLt b a = true := by
  induction a generalizing b with
  | nil =>
    cases b with
    | nil => right; left; rfl
    | cons y ys => left; simp [bytesLt]
  | cons x xs ih =>
    cases b with
    | nil => right; right; simp [bytesLt]
    | cons y ys =>
      by_cases hxy : x < y
      · left; simp [bytesLt, hxy]
      · by_cases hyx : y < x
        · right; right; simp [bytesLt, hyx]
        · have hxy2 : x = y := by omega
          subst hxy2
          rcases ih ys with h | h | h
          · left; simpa [bytesLt] using h
          · right; left; rw [h]
          · right; right; simpa [bytesLt] using h

theorem bytesLt_trans {a b c : List Nat} (hab : bytesLt a b = true)
    (hbc : bytesLt b c = true) : bytesLt a c = true := by
  induction a generalizing b c with
  | nil =>
    cases c with
    | nil =>
      cases b with
      | nil => exact hab
      | cons y ys => simp [bytesLt] at hbc
    | cons z zs => simp [bytesLt]
  | cons x xs ih =>
    cases b with
    | nil => simp [bytesLt] at hab
    | cons y ys =>
      cases c with
      | nil => simp [bytesLt] at hbc
      | cons z zs =>
        by_cases hxy : x < y <;> by_cases hyz : y < z
        · have hxz : x < z := by omega
          simp [bytesLt, hxz]
        · by_cases hzy : z < y
          · simp [bytesLt, hyz, hzy] at hbc
          · have hyz2 : y = z := by omega
            subst hyz2
            simp [bytesLt, hxy]
        · by_cases hyx : y < x
          · simp [bytesLt, hxy, hyx] at hab
          · have hxy2 : x = y := by omega
            subst hxy2
            simp [bytesLt, hyz]
        · by_cases hyx : y < x
          · simp [bytesLt, hxy, hyx] at hab
          · by_cases hzy : z < y
            · simp [bytesLt, hyz, hzy] at hbc
            · have hxy2 : x = y := by omega
              have hyz2 : y = z := by omega
              subst hxy2; subst hyz2
              have h1 : bytesLt xs ys = true := by
                simpa [bytesLt] using hab
              have h2 : bytesLt ys zs = true := by
                simpa [bytesLt] using hbc
              simpa [bytesLt] using ih h1 h2

/-! ## The bencode data model (`BencodeValue` in parser.rs) -/

/-- `BencodeValue`: byte string, signed 64-bit integer, list, dictionary.
The dictionary variant holds the canonical sorted association list that
represents the Rust `HashMap<Vec<u8>, BencodeValue>`. -/
inductive Bencode : Type where
  | str : List Nat → Bencode
  | int : Int → Bencode
  | list : List Bencode → Bencode
  | dict : List (List Nat × Bencode) → Bencode

/-- `HashMap::insert` on the canonical sorted association list: place the
key at its ordered position, overwriting an existing binding. -/
def dictInsert (k : List Nat) (v : Bencode) :
    List (List Nat × Bencode) → List (List Nat × Bencode)
  | [] => [(k, v)]
  | (k1, v1) :: es =>
    if bytesLt k k1 then (k, v) :: (k1, v1) :: es
    else if k = k1 then (k, v) :: es
    else (k1, v1) :: dictInsert k v es

/-- `HashMap::get` on the association list. -/
def dLookup (k : List Nat) : List (List Nat × Bencode) → Option Bencode
  | [] => none
  | (k1, v1) :: es => if k1 = k then some v1 else dLookup k es

/-- Elements strictly ascending under `bytesLt` on their key.  With
`key = Prod.fst` this is the invariant of the canonical association-list
representation of a `HashMap` keyed by byte strings. -/
def keySorted {α : Type} (key : α → List Nat) : List α → Bool
  | [] => true
  | [_] => true
  | a :: b :: t => bytesLt (key a) (key b) && keySorted key (b :: t)

theorem keySorted_tail {α : Type} {key : α → List Nat} {a : α} {t : List α}
    (h : keySorted key (a :: t) = true) : keySorted key t = true := by
  cases t with
  | nil => rfl
  | cons b t2 =>
    simp only [keySorted, Bool.and_eq_true] at h
    exact h.2

theorem keySorted_head_lt {α : Type} {key : α → List Nat} {a b : α}
    {t : List α} (h : keySorted key (a :: b :: t) = true) :
    bytesLt (key a) (key b) = true := by
  simp only [keySorted, Bool.and_eq_true] at h
  exact h.1

theorem keySorted_cons_of {α : Type} {key : α → List Nat} {a : α}
    {t : List α} (ht : keySorted key t = true)
    (hhd : ∀ b, t.head? = some b → bytesLt (key a) (key b) = true) :
    keySorted key (a :: t) = true := by
  cases t with
  | nil => rfl
  | cons b t2 =>
    simp only [keySorted, Bool.and_eq_true]
    exact ⟨hhd b rfl, ht⟩

theorem keySorted_cons_all {α : Type} {key : α → List Nat} {a : α} :
    ∀ {t : List α}, keySorted key (a :: t) = true →
      ∀ p ∈ t, bytesLt (key a) (key p) = true := by
  intro t
  induction t generalizing a with
  | nil => intro _ p hp; cases hp
  | cons b t2 ih =>
    intro h p hp
    have hab : bytesLt (key a) (key b) = true := keySorted_head_lt h
    cases hp with
    | head => exact hab
    | tail _ hp2 =>
      have hbt : keySorted key (b :: t2) = true := keySorted_tail h
      exact bytesLt_trans hab (ih hbt p hp2)

/-- `sortedKeys` for bencode dictionaries. -/
def sortedKeys (es : List (List Nat × Bencode)) : Bool :=
  keySorted Prod.fst es

theorem dictInsert_mem_keys {k : List Nat} {v : Bencode} :
    ∀ {es : List (List Nat × Bencode)} {p}, p ∈ dictInsert k v es →
      p.1 = k ∨ p ∈ es := by
  intro es
  induction es with
  | nil =>
    intro p hp
    simp only [dictInsert, List.mem_singleton] at hp
    subst hp; left; rfl
  | cons e t ih =>
    obtain ⟨k1, v1⟩ := e
    intro p hp
    simp only [dictInsert] at hp
    by_cases h1 : bytesLt k k1 = true
    · rw [if_pos h1] at hp
      simp only [List.mem_cons] at hp
      rcases hp with hp | hp | hp
      · subst hp; left; rfl
      · right; rw [hp]; exact List.mem_cons_self _ _
      · right; exact List.mem_cons_of_mem _ hp
    · rw [if_neg h1] at hp
      by_cases h2 : k = k1
      · rw [if_pos h2] at hp
        simp only [List.mem_cons] at hp
        rcases hp with hp | hp
        · subst hp; left; rfl
        · right; exact List.mem_cons_of_mem _ hp
      · rw [if_neg h2] at hp
        simp only [List.mem_cons] at hp
        rcases hp with hp | hp
        · right; rw [hp]; exact List.mem_cons_self _ _
        · rcases ih hp with h | h
          · left; exact h
          · right; exact List.mem_cons_of_mem _ h

theorem dictInsert_sorted {k : List Nat} {v : Bencode} :
    ∀ {es : List (List Nat × Bencode)}, sortedKeys es = true →
      sortedKeys (dictInsert k v es) = true := by
  intro es
  induction es with
  | nil => intro _; rfl
  | cons e t ih =>
    obtain ⟨k1, v1⟩ := e
    intro h
    have ht : sortedKeys t = true := keySorted_tail h
    simp only [dictInsert]
    by_cases h1 : bytesLt k k1 = true
    · rw [if_pos h1]
      exact keySorted_cons_of h (by intro b hb; cases hb; exact h1)
    · rw [if_neg h1]
      by_cases h2 : k = k1
      · rw [if_pos h2]
        subst h2
        exact keySorted_cons_of ht (by
          intro b hb
          exact keySorted_cons_all h b (List.mem_of_mem_head? hb))
      · rw [if_neg h2]
        have hk1k : bytesLt k1 k = true := by
          rcases bytesLt_total k k1 with hh | hh | hh
          · exact absurd hh h1
          · exact absurd hh h2
          · exact hh
        apply keySorted_cons_of (ih ht)
        intro b hb
        have hbmem : b ∈ dictInsert k v t := List.mem_of_mem_head? hb
        rcases dictInsert_mem_keys hbmem with hbk | hbt
        · rw [hbk]; exact hk1k
        · exact keySorted_cons_all h b hbt

theorem dictInsert_append {k : List Nat} {v : Bencode} :
    ∀ {es : List (List Nat × Bencode)},
      (∀ p ∈ es, bytesLt p.1 k = true) →
      dictInsert k v es = es ++ [(k, v)] := by
  intro es
  induction es with
  | nil => intro _; rfl
  | cons e t ih =>
    obtain ⟨k1, v1⟩ := e
    intro h
    have h1 : bytesLt k1 k = true := h (k1, v1) (List.mem_cons_self _ _)
    have hnlt : ¬ bytesLt k k1 = true := by
      intro hc; rw [bytesLt_asymm hc] at h1; cases h1
    have hne : ¬ k = k1 := by
      intro hc; subst hc; rw [bytesLt_irrefl] at h1; cases h1
    simp only [dictInsert]
    rw [if_neg hnlt, if_neg hne, ih (by intro p hp; exact h p (List.mem_cons_of_mem _ hp))]
    rfl

/-! ## Scanning and numeric token parsing (parser.rs helpers)

`parse_integer` and `parse_string` scan the input up to a terminator byte
and then run `str::from_utf8` followed by `i64::from_str` /
`usize::from_str` on the scanned bytes.  A byte slice accepted by those
`from_str` calls is ASCII, hence always valid UTF-8, and an invalid UTF-8
slice is never a valid number, so the composition of both checks is
modelled by a single numeric token parser returning `Option`. -/

/-- Scan a byte list up to (and consuming) the first occurrence of `stop`;
`none` when `stop` never occurs (Rust: cursor runs off the end). -/
def takeUntilByte (stop : Nat) : List Nat → Option (List Nat × List Nat)
  | [] => none
  | b :: bs =>
    if b = stop then some ([], bs)
    else
      match takeUntilByte stop bs with
      | none => none
      | some (tk, rm) => some (b :: tk, rm)

theorem takeUntilByte_eq {stop : Nat} :
    ∀ {l tk rm : List Nat}, takeUntilByte stop l = some (tk, rm) →
      l = tk ++ stop :: rm := by
  intro l
  induction l with
  | nil => intro tk rm h; cases h
  | cons b bs ih =>
    intro tk rm h
    simp only [takeUntilByte] at h
    by_cases hb : b = stop
    · rw [if_pos hb] at h
      cases h
      rw [hb]
      rfl
    · rw [if_neg hb] at h
      cases hcall : takeUntilByte stop bs with
      | none => rw [hcall] at h; cases h
      | some p =>
        obtain ⟨tk2, rm2⟩ := p
        rw [hcall] at h
        cases h
        rw [ih hcall]
        rfl

theorem takeUntilByte_length {stop : Nat} {l tk rm : List Nat}
    (h : takeUntilByte stop l = some (tk, rm)) : rm.length < l.length := by
  have := takeUntilByte_eq h
  subst this
  simp
  omega

theorem takeUntilByte_append {stop : Nat} :
    ∀ {tk : List Nat}, stop ∉ tk → ∀ (rest : List Nat),
      takeUntilByte stop (tk ++ stop :: rest) = some (tk, rest) := by
  intro tk
  induction tk with
  | nil => intro _ rest; simp [takeUntilByte]
  | cons b bs ih =>
    intro hmem rest
    have hb : ¬ b = stop := by
      intro hc; exact hmem (by rw [hc]; exact List.mem_cons_self _ _)
    have hrec := ih (by intro hc; exact hmem (List.mem_cons_of_mem _ hc)) rest
    show takeUntilByte stop (b :: (bs ++ stop :: rest)) = _
    rw [takeUntilByte, if_neg hb, hrec]

/-- All bytes are ASCII digits and there is at least one: then the numeric
value, else `none`.  This is the digit phase of Rust's `from_str` for
unsigned integers. -/
def digitsNum (l : List Nat) : Option Nat :=
  if l ≠ [] ∧ l.all (fun b => isDigit b) then some (digitsVal 0 l) else none

/-- Strip an optional leading sign byte (`+` 43 / `-` 45), then parse
digits; returns (negative?, magnitude).  Rust's integer `from_str` accepts
both signs (for unsigned types the `-` branch fails at the range check). -/
def parseSignDigits : List Nat → Option (Bool × Nat)
  | [] => none
  | b :: bs =>
    if b = 43 then (digitsNum bs).map (fun n => (false, n))
    else if b = 45 then (digitsNum bs).map (fun n => (true, n))
    else (digitsNum (b :: bs)).map (fun n => (false, n))

/-- `i64::from_str` on a byte slice: sign, digits, range check against
the two's-complement 64-bit range.  `-0` parses to 0. -/
def parseI64 (s : List Nat) : Option Int :=
  match parseSignDigits s with
  | none => none
  | some (true, n) => if n ≤ 2 ^ 63 then some (-(n : Int)) else none
  | some (false, n) => if n ≤ 2 ^ 63 - 1 then some ((n : Int)) else none

/-- `usize::from_str` on a byte slice (64-bit platform). -/
def parseU64 (s : List Nat) : Option Nat :=
  match parseSignDigits s with
  | some (false, n) => if n ≤ 2 ^ 64 - 1 then some n else none
  | _ => none

/-! ## Decimal printing (`to_string` on integers) -/

def natToDigitsAux (n : Nat) (acc : List Nat) : List Nat :=
  if h : n = 0 then acc else natToDigitsAux (n / 10) ((n % 10 + 48) :: acc)
termination_by n
decreasing_by exact Nat.div_lt_self (Nat.pos_of_ne_zero h) (by omega)

def natToDigits (n : Nat) : List Nat := natToDigitsAux n []

/-- Decimal digits of `n`, as `usize::to_string` produces them. -/
def natDecimal (n : Nat) : List Nat := if n = 0 then [48] else natToDigits n

/-- Decimal bytes of a signed integer, as `i64::to_string` produces them
(minus sign 45 for negative values, never `-0`). -/
def intDecimal : Int → List Nat
  | Int.ofNat n => natDecimal n
  | Int.negSucc m => 45 :: natDecimal (m + 1)

theorem natToDigits_zero : natToDigits 0 = [] := by
  rw [natToDigits]
  rw [natToDigitsAux]
  rw [dif_pos rfl]

theorem natToDigitsAux_acc (n : Nat) :
    ∀ acc : List Nat, natToDigitsAux n acc = natToDigits n ++ acc := by
  induction n using Nat.strong_induction_on with
  | _ n ih =>
    intro acc
    by_cases h0 : n = 0
    · subst h0
      rw [natToDigitsAux]
      rw [dif_pos rfl]
      rw [natToDigits_zero]
      rfl
    · have hlt : n / 10 < n := Nat.div_lt_self (Nat.pos_of_ne_zero h0) (by omega)
      have e1 : natToDigitsAux n acc = natToDigitsAux (n / 10) ((n % 10 + 48) :: acc) := by
        rw [natToDigitsAux]
        rw [dif_neg h0]
      have e2 : natToDigits n = natToDigitsAux (n / 10) [n % 10 + 48] := by
        rw [natToDigits]
        rw [natToDigitsAux]
        rw [dif_neg h0]
      rw [e1, ih _ hlt, e2, ih _ hlt]
      simp

theorem natToDigits_digits (n : Nat) :
    ∀ d ∈ natToDigits n, isDigit d = true := by
  induction n using Nat.strong_induction_on with
  | _ n ih =>
    intro d hd
    by_cases h0 : n = 0
    · subst h0
      rw [natToDigits_zero] at hd
      cases hd
    · have hlt : n / 10 < n := Nat.div_lt_self (Nat.pos_of_ne_zero h0) (by omega)
      have e2 : natToDigits n = natToDigits (n / 10) ++ [n % 10 + 48] := by
        rw [natToDigits]
        rw [natToDigitsAux]
        rw [dif_neg h0]
        rw [natToDigitsAux_acc]
      rw [e2] at hd
      rcases List.mem_append.mp hd with h | h
      · exact ih _ hlt d h
      · have : d = n % 10 + 48 := by simpa using h
        subst this
        have : n % 10 < 10 := Nat.mod_lt _ (by omega)
        simp [isDigit]
        omega

theorem digitsVal_natToDigits (n : Nat) :
    ∀ a : Nat, digitsVal a (natToDigits n) =
      a * 10 ^ (natToDigits n).length + n := by
  induction n using Nat.strong_induction_on with
  | _ n ih =>
    intro a
    by_cases h0 : n = 0
    · subst h0
      rw [natToDigits_zero]
      rw [digitsVal_nil]
      simp
    · have hlt : n / 10 < n := Nat.div_lt_self (Nat.pos_of_ne_zero h0) (by omega)
      have hexp : natToDigits n = natToDigits (n / 10) ++ [n % 10 + 48] := by
        rw [natToDigits]
        rw [natToDigitsAux]
        rw [dif_neg h0]
        rw [natToDigitsAux_acc]
      rw [hexp, digitsVal_append, ih _ hlt]
      simp only [digitsVal_cons, digitsVal_nil, List.length_append,
        List.length_cons, List.length_nil]
      have hmod : n % 10 + 48 - 48 = n % 10 := by omega
      rw [hmod]
      have hdm : n / 10 * 10 + n % 10 = n := by
        have := Nat.div_add_mod n 10
        omega
      generalize (natToDigits (n / 10)).length = k
      rw [pow_succ, Nat.add_mul, Nat.add_assoc, hdm, ← Nat.mul_assoc]

theorem natDecimal_digits (n : Nat) : ∀ d ∈ natDecimal n, isDigit d = true := by
  intro d hd
  rw [natDecimal] at hd
  by_cases h0 : n = 0
  · rw [if_pos h0] at hd
    have : d = 48 := by simpa using hd
    subst this; rfl
  · rw [if_neg h0] at hd
    exact natToDigits_digits n d hd

theorem natDecimal_ne_nil (n : Nat) : natDecimal n ≠ [] := by
  rw [natDecimal]
  by_cases h0 : n = 0
  · rw [if_pos h0]; simp
  · rw [if_neg h0]
    intro hc
    have h2 := digitsVal_natToDigits n 0
    rw [hc, digitsVal_nil] at h2
    simp at h2
    omega

theorem digitsVal_natDecimal (n : Nat) : digitsVal 0 (natDecimal n) = n := by
  rw [natDecimal]
  by_cases h0 : n = 0
  · rw [if_pos h0, h0]; rfl
  · rw [if_neg h0]
    have := digitsVal_natToDigits n 0
    simpa using this

theorem digitsNum_natDecimal (n : Nat) : digitsNum (natDecimal n) = some n := by
  have hall : (natDecimal n).all (fun b => isDigit b) = true := by
    rw [List.all_eq_true]; exact natDecimal_digits n
  rw [digitsNum, if_pos ⟨natDecimal_ne_nil n, hall⟩, digitsVal_natDecimal]

theorem parseSignDigits_natDecimal (n : Nat) :
    parseSignDigits (natDecimal n) = some (false, n) := by
  cases hd : natDecimal n with
  | nil => exact absurd hd (natDecimal_ne_nil n)
  | cons b bs =>
    have hb : isDigit b = true := by
      apply natDecimal_digits n
      rw [hd]; exact List.mem_cons_self _ _
    have hb43 : ¬ b = 43 := by simp [isDigit] at hb; omega
    have hb45 : ¬ b = 45 := by simp [isDigit] at hb; omega
    have := digitsNum_natDecimal n
    rw [hd] at this
    simp only [parseSignDigits, if_neg hb43, if_neg hb45, this]
    rfl

theorem parseU64_natDecimal {n : Nat} (h : n ≤ 2 ^ 64 - 1) :
    parseU64 (natDecimal n) = some n := by
  rw [parseU64, parseSignDigits_natDecimal]
  show (if n ≤ 2 ^ 64 - 1 then some n else none) = some n
  rw [if_pos h]

theorem parseI64_intDecimal {i : Int}
    (hlo : -(2 ^ 63) ≤ i) (hhi : i ≤ 2 ^ 63 - 1) :
    parseI64 (intDecimal i) = some i := by
  cases i with
  | ofNat n =>
    have hn : n ≤ 2 ^ 63 - 1 := by
      have h2 : (n : Int) ≤ 2 ^ 63 - 1 := hhi
      omega
    rw [intDecimal, parseI64, parseSignDigits_natDecimal]
    show (if n ≤ 2 ^ 63 - 1 then some ((n : Int)) else none) = some (Int.ofNat n)
    rw [if_pos hn]
    rfl
  | negSucc m =>
    have hm : m + 1 ≤ 2 ^ 63 := by
      have h2 : -(2 ^ 63 : Int) ≤ Int.negSucc m := hlo
      rw [Int.negSucc_eq] at h2
      omega
    have hds := digitsNum_natDecimal (m + 1)
    have hsign : parseSignDigits (45 :: natDecimal (m + 1)) = some (true, m + 1) := by
      rw [parseSignDigits, if_neg (by omega : ¬ (45 : Nat) = 43), if_pos rfl, hds]
      rfl
    rw [intDecimal, parseI64, hsign]
    show (if m + 1 ≤ 2 ^ 63 then some (-((m + 1 : Nat) : Int)) else none) =
      some (Int.negSucc m)
    rw [if_pos hm]
    have hval : -((m + 1 : Nat) : Int) = Int.negSucc m := by
      rw [Int.negSucc_eq]
      push_cast
      ring
    rw [hval]

/-! ## The bencode parser (`BencodeParser` in parser.rs)

The Rust parser is a cursor over a byte slice; we model it as functions
consuming a `List Nat` and returning the parsed value together with the
unconsumed remainder.  Each successful parse consumes at least one byte;
the result type carries that fact to justify termination of the
`parse_list` / `parse_dictionary` loops. -/

mutual

/-- `BencodeParser::parse`: dispatch on the first byte
(105 = i, 108 = l, 100 = d, an ASCII digit starts a byte string),
anything else or empty input is an error. -/
def parseV : (data : List Nat) →
    Option { p : Bencode × List Nat // p.2.length < data.length }
  | [] => none
  | c :: rest =>
    if c = 105 then
      match h : takeUntilByte 101 rest with
      | none => none
      | some (tk, rm) =>
        match parseI64 tk with
        | none => none
        | some n =>
          some ⟨(Bencode.int n, rm), Nat.lt_succ_of_lt (takeUntilByte_length h)⟩
    else if c = 108 then
      match parseItems rest with
      | none => none
      | some ⟨(vs, rm), hp⟩ =>
        some ⟨(Bencode.list vs, rm), Nat.lt_succ_of_le hp⟩
    else if c = 100 then
      match parseEntries [] rest with
      | none => none
      | some ⟨(es, rm), hp⟩ =>
        some ⟨(Bencode.dict es, rm), Nat.lt_succ_of_le hp⟩
    else if isDigit c then
      match h : takeUntilByte 58 (c :: rest) with
      | none => none
      | some (tk, rm) =>
        match parseU64 tk with
        | none => none
        | some len =>
          if len ≤ rm.length then
            some ⟨(Bencode.str (rm.take len), rm.drop len), by
              have h1 : rm.length < (c :: rest).length := takeUntilByte_length h
              have h2 : (rm.drop len).length ≤ rm.length := by
                rw [List.length_drop]; omega
              simp only [List.length_cons] at h1 ⊢
              omega⟩
          else none
    else none
termination_by data => (data.length, 0)
decreasing_by
all_goals
  simp_wf
  try dsimp only [List.length_cons] at *
  first
  | (apply Prod.Lex.right; omega)
  | (apply Prod.Lex.left; omega)

/-- The `parse_list` loop: parse values until the terminating 101 = e. -/
def parseItems : (data : List Nat) →
    Option { p : List Bencode × List Nat // p.2.length ≤ data.length }
  | [] => none
  | c :: rest =>
    if c = 101 then some ⟨([], rest), by simp⟩
    else
      match parseV (c :: rest) with
      | none => none
      | some ⟨(v, rm), h1⟩ =>
        match parseItems rm with
        | none => none
        | some ⟨(vs, rm2), h2⟩ =>
          some ⟨(v :: vs, rm2), by
            show rm2.length ≤ (c :: rest).length
            have h1b : rm.length < rest.length + 1 := h1
            have h2b : rm2.length ≤ rm.length := h2
            simp only [List.length_cons]
            omega⟩
termination_by data => (data.length, 1)
decreasing_by
all_goals
  simp_wf
  try dsimp only [List.length_cons] at *
  first
  | (apply Prod.Lex.right; omega)
  | (apply Prod.Lex.left; omega)

/-- The `parse_dictionary` loop: parse a key (must be a byte string) and a
value until the terminating 101 = e, inserting each pair into the map. -/
def parseEntries : (acc : List (List Nat × Bencode)) → (data : List Nat) →
    Option { p : List (List Nat × Bencode) × List Nat // p.2.length ≤ data.length }
  | _, [] => none
  | acc, c :: rest =>
    if c = 101 then some ⟨(acc, rest), by simp⟩
    else
      match parseV (c :: rest) with
      | none => none
      | some ⟨(kv, rm), h1⟩ =>
        match kv with
        | Bencode.str k =>
          match parseV rm with
          | none => none
          | some ⟨(v, rm2), h2⟩ =>
            match parseEntries (dictInsert k v acc) rm2 with
            | none => none
            | some ⟨(es, rm3), h3⟩ =>
              some ⟨(es, rm3), by
                show rm3.length ≤ (c :: rest).length
                have h1b : rm.length < rest.length + 1 := h1
                have h2b : rm2.length < rm.length := h2
                have h3b : rm3.length ≤ rm2.length := h3
                simp only [List.length_cons]
                omega⟩
        | _ => none
termination_by _ data => (data.length, 1)
decreasing_by
all_goals
  simp_wf
  try dsimp only [List.length_cons] at *
  first
  | (apply Prod.Lex.right; omega)
  | (apply Prod.Lex.left; omega)

end

/-- `BencodeParser::parse` with the length proof erased: parsed value and
unconsumed remainder (`parse_torrent_file` and the tracker both call
`parse` once and ignore any trailing bytes). -/
def parse (data : List Nat) : Option (Bencode × List Nat) :=
  (parseV data).map Subtype.val

def itemsW (data : List Nat) : Option (List Bencode × List Nat) :=
  (parseItems data).map Subtype.val

def entriesW (acc : List (List Nat × Bencode)) (data : List Nat) :
    Option (List (List Nat × Bencode) × List Nat) :=
  (parseEntries acc data).map Subtype.val

theorem parse_length {data : List Nat} {v : Bencode} {rest : List Nat}
    (h : parse data = some (v, rest)) : rest.length < data.length := by
  rw [parse] at h
  cases hv : parseV data with
  | none => rw [hv] at h; cases h
  | some p =>
    rw [hv] at h
    obtain ⟨⟨v2, rm⟩, hlen⟩ := p
    cases h
    exact hlen

theorem parse_nil : parse [] = none := by
  rw [parse, parseV]
  rfl

theorem itemsW_nil : itemsW [] = none := by
  rw [itemsW, parseItems]
  rfl

theorem entriesW_nil (acc : List (List Nat × Bencode)) :
    entriesW acc [] = none := by
  rw [entriesW, parseEntries]
  rfl

theorem parse_int (rest : List Nat) :
    parse (105 :: rest) =
      match takeUntilByte 101 rest with
      | none => none
      | some (tk, rm) =>
        match parseI64 tk with
        | none => none
        | some n => some (Bencode.int n, rm) := by
  rw [parse, parseV]
  rw [if_pos rfl]
  split
  next heq => rw [heq]; rfl
  next tk rm heq =>
    simp only [heq]
    cases h2 : parseI64 tk with
    | none => simp [h2]
    | some n => simp [h2]

theorem parse_list_eq (rest : List Nat) :
    parse (108 :: rest) =
      (itemsW rest).map (fun p => (Bencode.list p.1, p.2)) := by
  rw [parse, parseV]
  rw [if_neg (by omega : ¬ (108 : Nat) = 105), if_pos rfl]
  rw [itemsW]
  cases h1 : parseItems rest with
  | none => rfl
  | some p =>
    obtain ⟨⟨vs, rm⟩, hlen⟩ := p
    simp

theorem parse_dict_eq (rest : List Nat) :
    parse (100 :: rest) =
      (entriesW [] rest).map (fun p => (Bencode.dict p.1, p.2)) := by
  rw [parse, parseV]
  rw [if_neg (by omega : ¬ (100 : Nat) = 105), if_neg (by omega : ¬ (100 : Nat) = 108),
    if_pos rfl]
  rw [entriesW]
  cases h1 : parseEntries [] rest with
  | none => rfl
  | some p =>
    obtain ⟨⟨es, rm⟩, hlen⟩ := p
    simp

theorem parse_str {c : Nat} (hc : isDigit c = true) (rest : List Nat) :
    parse (c :: rest) =
      match takeUntilByte 58 (c :: rest) with
      | none => none
      | some (tk, rm) =>
        match parseU64 tk with
        | none => none
        | some len =>
          if len ≤ rm.length then
            some (Bencode.str (rm.take len), rm.drop len)
          else none := by
  have hb : 48 ≤ c ∧ c ≤ 57 := by
    rw [isDigit, Bool.and_eq_true, decide_eq_true_eq, decide_eq_true_eq] at hc
    exact hc
  rw [parse, parseV]
  rw [if_neg (by omega : ¬ c = 105), if_neg (by omega : ¬ c = 108),
    if_neg (by omega : ¬ c = 100), if_pos hc]
  split
  next heq => rw [heq]; rfl
  next tk rm heq =>
    simp only [heq]
    cases h2 : parseU64 tk with
    | none => simp [h2]
    | some len =>
      by_cases h3 : len ≤ rm.length
      · simp [h2, h3]
      · simp [h2, h3]

theorem parse_other {c : Nat} (h105 : ¬ c = 105) (h108 : ¬ c = 108)
    (h100 : ¬ c = 100) (hd : isDigit c = false) (rest : List Nat) :
    parse (c :: rest) = none := by
  rw [parse, parseV]
  rw [if_neg h105, if_neg h108, if_neg h100, if_neg (by rw [hd]; simp)]
  rfl

theorem itemsW_end (rest : List Nat) : itemsW (101 :: rest) = some ([], rest) := by
  rw [itemsW, parseItems]
  rw [if_pos rfl]
  rfl

theorem itemsW_step {c : Nat} (hc : ¬ c = 101) (rest : List Nat) :
    itemsW (c :: rest) =
      match parse (c :: rest) with
      | none => none
      | some (v, rm) =>
        match itemsW rm with
        | none => none
        | some (vs, rm2) => some (v :: vs, rm2) := by
  rw [itemsW, parseItems]
  rw [if_neg hc]
  cases h1 : parseV (c :: rest) with
  | none => simp [parse, h1]
  | some p =>
    obtain ⟨⟨v, rm⟩, hlen⟩ := p
    cases h2 : parseItems rm with
    | none => simp [parse, itemsW, h1, h2]
    | some q =>
      obtain ⟨⟨vs, rm2⟩, hlen2⟩ := q
      simp [parse, itemsW, h1, h2]

theorem entriesW_end (acc : List (List Nat × Bencode)) (rest : List Nat) :
    entriesW acc (101 :: rest) = some (acc, rest) := by
  rw [entriesW, parseEntries]
  rw [if_pos rfl]
  rfl

theorem entriesW_step {c : Nat} (hc : ¬ c = 101)
    (acc : List (List Nat × Bencode)) (rest : List Nat) :
    entriesW acc (c :: rest) =
      match parse (c :: rest) with
      | none => none
      | some (kv, rm) =>
        match kv with
        | Bencode.str k =>
          match parse rm with
          | none => none
          | some (v, rm2) => entriesW (dictInsert k v acc) rm2
        | _ => none := by
  rw [entriesW, parseEntries]
  rw [if_neg hc]
  cases h1 : parseV (c :: rest) with
  | none => simp [parse, h1]
  | some p =>
    obtain ⟨⟨kv, rm⟩, hlen⟩ := p
    cases kv with
    | str k =>
      cases h2 : parseV rm with
      | none => simp [parse, h1, h2]
      | some q =>
        obtain ⟨⟨v, rm2⟩, hlen2⟩ := q
        cases h3 : parseEntries (dictInsert k v acc) rm2 with
        | none => simp [parse, entriesW, h1, h2, h3]
        | some r =>
          obtain ⟨⟨es, rm3⟩, hlen3⟩ := r
          simp [parse, entriesW, h1, h2, h3]
    | int n => simp [parse, h1]
    | list l => simp [parse, h1]
    | dict d => simp [parse, h1]

/-! ## The bencode encoder (`bencode_encode` in parser.rs) -/

/-- Byte-string encoding: decimal length, 58 = colon, then the raw bytes. -/
def encodeStr (s : List Nat) : List Nat := natDecimal s.length ++ 58 :: s

/-- Insertion step of sorting dictionary entries by key
(`keys.sort()` in the Rust encoder). -/
def insertPair (p : List Nat × List Nat) :
    List (List Nat × List Nat) → List (List Nat × List Nat)
  | [] => [p]
  | q :: qs => if bytesLt p.1 q.1 then p :: q :: qs else q :: insertPair p qs

/-- Sort (key, rendered value) pairs by ascending key.  The Rust encoder
collects the `HashMap` keys, sorts them, and emits each key/value in that
order; rendering values first and then sorting the pairs by key produces
the identical byte stream, since rendering does not depend on position. -/
def sortPairs : List (List Nat × List Nat) → List (List Nat × List Nat)
  | [] => []
  | p :: ps => insertPair p (sortPairs ps)

/-- Concatenate encoded dictionary entries: `len:key` then the encoded
value bytes, in list order. -/
def joinPairs : List (List Nat × List Nat) → List Nat
  | [] => []
  | (k, bs) :: es => encodeStr k ++ bs ++ joinPairs es

mutual

/-- `bencode_encode`: strings as `len:bytes`, integers as `i<decimal>e`,
lists as `l...e`, dictionaries as `d...e` with keys in ascending
byte-lexicographic order. -/
def encodeB : Bencode → List Nat
  | Bencode.str s => encodeStr s
  | Bencode.int n => 105 :: intDecimal n ++ [101]
  | Bencode.list l => 108 :: encodeList l ++ [101]
  | Bencode.dict es => 100 :: joinPairs (sortPairs (encodePairs es)) ++ [101]

def encodeList : List Bencode → List Nat
  | [] => []
  | v :: vs => encodeB v ++ encodeList vs

def encodePairs : List (List Nat × Bencode) → List (List Nat × List Nat)
  | [] => []
  | (k, v) :: es => (k, encodeB v) :: encodePairs es

end

/-! ## Values representable by the Rust data structures

Integers fit in `i64`, byte-string lengths fit in `usize`, and the
dictionary association lists satisfy the canonical sorted-keys invariant
of the `HashMap` model.  Every value the parser produces is of this
shape. -/

mutual

def validB : Bencode → Bool
  | Bencode.str s => decide (s.length ≤ 2 ^ 64 - 1)
  | Bencode.int n => decide (-(2 ^ 63) ≤ n) && decide (n ≤ 2 ^ 63 - 1)
  | Bencode.list l => validList l
  | Bencode.dict es => validEntries es && sortedKeys es

def validList : List Bencode → Bool
  | [] => true
  | v :: vs => validB v && validList vs

def validEntries : List (List Nat × Bencode) → Bool
  | [] => true
  | (k, v) :: es => decide (k.length ≤ 2 ^ 64 - 1) && validB v && validEntries es

end

theorem parseI64_bounds {s : List Nat} {n : Int} (h : parseI64 s = some n) :
    -(2 ^ 63) ≤ n ∧ n ≤ 2 ^ 63 - 1 := by
  rw [parseI64] at h
  cases hs : parseSignDigits s with
  | none => rw [hs] at h; cases h
  | some p =>
    obtain ⟨neg, m⟩ := p
    rw [hs] at h
    cases neg with
    | true =>
      have h2 : (if m ≤ 2 ^ 63 then some (-(m : Int)) else none) = some n := h
      by_cases hm : m ≤ 2 ^ 63
      · rw [if_pos hm] at h2
        cases h2
        constructor <;> omega
      · rw [if_neg hm] at h2; cases h2
    | false =>
      have h2 : (if m ≤ 2 ^ 63 - 1 then some ((m : Int)) else none) = some n := h
      by_cases hm : m ≤ 2 ^ 63 - 1
      · rw [if_pos hm] at h2
        cases h2
        constructor <;> omega
      · rw [if_neg hm] at h2; cases h2

theorem parseU64_bound {s : List Nat} {len : Nat} (h : parseU64 s = some len) :
    len ≤ 2 ^ 64 - 1 := by
  rw [parseU64] at h
  cases hs : parseSignDigits s with
  | none => rw [hs] at h; cases h
  | some p =>
    obtain ⟨neg, m⟩ := p
    rw [hs] at h
    cases neg with
    | true => cases h
    | false =>
      have h2 : (if m ≤ 2 ^ 64 - 1 then some m else none) = some len := h
      by_cases hm : m ≤ 2 ^ 64 - 1
      · rw [if_pos hm] at h2
        cases h2
        exact hm
      · rw [if_neg hm] at h2; cases h2

theorem dictInsert_validEntries {k : List Nat} {v : Bencode}
    (hk : k.length ≤ 2 ^ 64 - 1) (hv : validB v = true) :
    ∀ {es : List (List Nat × Bencode)}, validEntries es = true →
      validEntries (dictInsert k v es) = true := by
  intro es
  induction es with
  | nil =>
    intro _
    simp only [dictInsert, validEntries, Bool.and_eq_true, decide_eq_true_eq]
    exact ⟨⟨hk, hv⟩, trivial⟩
  | cons e t ih =>
    obtain ⟨k1, v1⟩ := e
    intro h
    simp only [validEntries, Bool.and_eq_true, decide_eq_true_eq] at h
    obtain ⟨⟨hk1, hv1⟩, ht⟩ := h
    simp only [dictInsert]
    by_cases h1 : bytesLt k k1 = true
    · rw [if_pos h1]
      simp only [validEntries, Bool.and_eq_true, decide_eq_true_eq]
      exact ⟨⟨hk, hv⟩, ⟨hk1, hv1⟩, ht⟩
    · rw [if_neg h1]
      by_cases h2 : k = k1
      · rw [if_pos h2]
        simp only [validEntries, Bool.and_eq_true, decide_eq_true_eq]
        exact ⟨⟨hk, hv⟩, ht⟩
      · rw [if_neg h2]
        simp only [validEntries, Bool.and_eq_true, decide_eq_true_eq]
        exact ⟨⟨hk1, hv1⟩, ih ht⟩

theorem validB_str (s : List Nat) :
    validB (Bencode.str s) = decide (s.length ≤ 2 ^ 64 - 1) := rfl

theorem validB_int (n : Int) :
    validB (Bencode.int n) =
      (decide (-(2 ^ 63) ≤ n) && decide (n ≤ 2 ^ 63 - 1)) := rfl

theorem validB_list (l : List Bencode) : validB (Bencode.list l) = validList l := rfl

theorem validB_dict (es : List (List Nat × Bencode)) :
    validB (Bencode.dict es) = (validEntries es && sortedKeys es) := rfl

theorem validList_nil : validList [] = true := rfl

theorem validList_cons (v : Bencode) (vs : List Bencode) :
    validList (v :: vs) = (validB v && validList vs) := rfl

theorem validEntries_nil : validEntries [] = true := rfl

theorem validEntries_cons (k : List Nat) (v : Bencode)
    (es : List (List Nat × Bencode)) :
    validEntries ((k, v) :: es) =
      (decide (k.length ≤ 2 ^ 64 - 1) && validB v && validEntries es) := rfl

theorem encodeB_str (s : List Nat) : encodeB (Bencode.str s) = encodeStr s := rfl

theorem encodeB_int (n : Int) :
    encodeB (Bencode.int n) = 105 :: intDecimal n ++ [101] := rfl

theorem encodeB_list (l : List Bencode) :
    encodeB (Bencode.list l) = 108 :: encodeList l ++ [101] := rfl

theorem encodeB_dict (es : List (List Nat × Bencode)) :
    encodeB (Bencode.dict es) =
      100 :: joinPairs (sortPairs (encodePairs es)) ++ [101] := rfl

theorem encodeList_nil : encodeList [] = [] := rfl

theorem encodeList_cons (v : Bencode) (vs : List Bencode) :
    encodeList (v :: vs) = encodeB v ++ encodeList vs := rfl

theorem encodePairs_nil : encodePairs [] = [] := rfl

theorem encodePairs_cons (k : List Nat) (v : Bencode)
    (es : List (List Nat × Bencode)) :
    encodePairs ((k, v) :: es) = (k, encodeB v) :: encodePairs es := rfl

/-! ## Every value the parser produces is valid -/

theorem parserValidAux :
    ∀ N : Nat, ∀ data : List Nat, data.length ≤ N →
      (∀ v rest, parse data = some (v, rest) → validB v = true) ∧
      (∀ vs rest, itemsW data = some (vs, rest) → validList vs = true) ∧
      (∀ acc es rest, validEntries acc = true → sortedKeys acc = true →
        entriesW acc data = some (es, rest) →
        validEntries es = true ∧ sortedKeys es = true) := by
  intro N
  induction N with
  | zero =>
    intro data hlen
    have hdata : data = [] := List.eq_nil_of_length_eq_zero (by omega)
    subst hdata
    refine ⟨?_, ?_, ?_⟩
    · intro v rest h; rw [parse_nil] at h; cases h
    · intro vs rest h; rw [itemsW_nil] at h; cases h
    · intro acc es rest _ _ h; rw [entriesW_nil] at h; cases h
  | succ N ih =>
    intro data hlen
    cases data with
    | nil =>
      refine ⟨?_, ?_, ?_⟩
      · intro v rest h; rw [parse_nil] at h; cases h
      · intro vs rest h; rw [itemsW_nil] at h; cases h
      · intro acc es rest _ _ h; rw [entriesW_nil] at h; cases h
    | cons c rest0 =>
      have hlen0 : rest0.length ≤ N := by
        simp only [List.length_cons] at hlen
        omega
      have hparse : ∀ v rest, parse (c :: rest0) = some (v, rest) →
          validB v = true := by
        intro v rest h
        by_cases h105 : c = 105
        · subst h105
          rw [parse_int] at h
          cases h1 : takeUntilByte 101 rest0 with
          | none => simp only [h1] at h; cases h
          | some p =>
            obtain ⟨tk, rm⟩ := p
            simp only [h1] at h
            cases h2 : parseI64 tk with
            | none => simp only [h2] at h; cases h
            | some n =>
              simp only [h2] at h
              cases h
              rw [validB_int]
              simp only [Bool.and_eq_true, decide_eq_true_eq]
              exact parseI64_bounds h2
        · by_cases h108 : c = 108
          · subst h108
            rw [parse_list_eq] at h
            cases h1 : itemsW rest0 with
            | none => simp only [h1] at h; cases h
            | some p =>
              obtain ⟨vs, rm⟩ := p
              rw [h1] at h
              have h3 : some (Bencode.list vs, rm) = some (v, rest) := h
              cases h3
              rw [validB_list]
              exact (ih rest0 hlen0).2.1 _ _ h1
          · by_cases h100 : c = 100
            · subst h100
              rw [parse_dict_eq] at h
              cases h1 : entriesW [] rest0 with
              | none => simp only [h1] at h; cases h
              | some p =>
                obtain ⟨es, rm⟩ := p
                rw [h1] at h
                have h3 : some (Bencode.dict es, rm) = some (v, rest) := h
                cases h3
                rw [validB_dict]
                have := (ih rest0 hlen0).2.2 [] _ _ validEntries_nil rfl h1
                simp only [Bool.and_eq_true]
                exact this
            · by_cases hdig : isDigit c = true
              · rw [parse_str hdig] at h
                cases h1 : takeUntilByte 58 (c :: rest0) with
                | none => simp only [h1] at h; cases h
                | some p =>
                  obtain ⟨tk, rm⟩ := p
                  simp only [h1] at h
                  cases h2 : parseU64 tk with
                  | none => simp only [h2] at h; cases h
                  | some len =>
                    simp only [h2] at h
                    by_cases h3 : len ≤ rm.length
                    · rw [if_pos h3] at h
                      cases h
                      rw [validB_str]
                      simp only [decide_eq_true_eq, List.length_take]
                      have h4 := parseU64_bound h2
                      omega
                    · rw [if_neg h3] at h
                      cases h
              · have hdig2 : isDigit c = false := by
                  revert hdig
                  cases isDigit c <;> simp
                rw [parse_other h105 h108 h100 hdig2] at h
                cases h
      have hitems : ∀ vs rest, itemsW (c :: rest0) = some (vs, rest) →
          validList vs = true := by
        intro vs rest h
        by_cases h101 : c = 101
        · subst h101
          rw [itemsW_end] at h
          cases h
          exact validList_nil
        · rw [itemsW_step h101] at h
          cases h1 : parse (c :: rest0) with
          | none => simp only [h1] at h; cases h
          | some p =>
            obtain ⟨v, rm⟩ := p
            simp only [h1] at h
            cases h2 : itemsW rm with
            | none => simp only [h2] at h; cases h
            | some q =>
              obtain ⟨vs2, rm2⟩ := q
              simp only [h2] at h
              cases h
              rw [validList_cons, Bool.and_eq_true]
              refine ⟨hparse v rm h1, ?_⟩
              have hrm : rm.length ≤ N := by
                have h5 := parse_length h1
                simp only [List.length_cons] at h5
                omega
              exact (ih rm hrm).2.1 _ _ h2
      have hentries : ∀ acc es rest, validEntries acc = true →
          sortedKeys acc = true → entriesW acc (c :: rest0) = some (es, rest) →
          validEntries es = true ∧ sortedKeys es = true := by
        intro acc es rest hacc1 hacc2 h
        by_cases h101 : c = 101
        · subst h101
          rw [entriesW_end] at h
          cases h
          exact ⟨hacc1, hacc2⟩
        · rw [entriesW_step h101] at h
          cases h1 : parse (c :: rest0) with
          | none => simp only [h1] at h; cases h
          | some p =>
            obtain ⟨kv, rm⟩ := p
            simp only [h1] at h
            cases kv with
            | str k =>
              cases h2 : parse rm with
              | none => simp only [h2] at h; cases h
              | some q =>
                obtain ⟨v, rm2⟩ := q
                simp only [h2] at h
                have hk : k.length ≤ 2 ^ 64 - 1 := by
                  have h6 := hparse _ _ h1
                  rw [validB_str] at h6
                  simpa using h6
                have hrm : rm.length ≤ N := by
                  have h5 := parse_length h1
                  simp only [List.length_cons] at h5
                  omega
                have hv : validB v = true := (ih rm hrm).1 v rm2 h2
                have hrm2 : rm2.length ≤ N := by
                  have h5 := parse_length h2
                  omega
                exact (ih rm2 hrm2).2.2 (dictInsert k v acc) es rest
                  (dictInsert_validEntries hk hv hacc1) (dictInsert_sorted hacc2) h
            | int n => exact Option.noConfusion h
            | list l => exact Option.noConfusion h
            | dict d => exact Option.noConfusion h
      exact ⟨hparse, hitems, hentries⟩

/-- Every value returned by `BencodeParser::parse` is representable:
`i64`-range integers, `usize`-range string lengths, sorted dictionaries. -/
theorem parse_validB {data : List Nat} {v : Bencode} {rest : List Nat}
    (h : parse data = some (v, rest)) : validB v = true :=
  (parserValidAux data.length data le_rfl).1 v rest h

/-! ## Parsing a canonical encoding recovers the value -/

theorem intDecimal_mem {n : Int} :
    ∀ d ∈ intDecimal n, isDigit d = true ∨ d = 45 := by
  intro d hd
  cases n with
  | ofNat m =>
    rw [intDecimal] at hd
    exact Or.inl (natDecimal_digits m d hd)
  | negSucc m =>
    rw [intDecimal] at hd
    cases hd with
    | head => exact Or.inr rfl
    | tail _ h2 => exact Or.inl (natDecimal_digits (m + 1) d h2)

theorem not_mem_intDecimal_101 (n : Int) : (101 : Nat) ∉ intDecimal n := by
  intro hc
  rcases intDecimal_mem 101 hc with h | h
  · rw [isDigit] at h
    simp at h
  · cases h

theorem not_mem_natDecimal_58 (m : Nat) : (58 : Nat) ∉ natDecimal m := by
  intro hc
  have := natDecimal_digits m 58 hc
  rw [isDigit] at this
  simp at this

theorem parse_encodeInt {n : Int} (h1 : -(2 ^ 63) ≤ n) (h2 : n ≤ 2 ^ 63 - 1)
    (rest : List Nat) :
    parse (encodeB (Bencode.int n) ++ rest) = some (Bencode.int n, rest) := by
  rw [encodeB_int]
  have hshape : (105 :: intDecimal n ++ [101]) ++ rest =
      105 :: (intDecimal n ++ 101 :: rest) := by simp
  rw [hshape, parse_int]
  simp only [takeUntilByte_append (not_mem_intDecimal_101 n) rest,
    parseI64_intDecimal h1 h2]

theorem encodeStr_head (s : List Nat) :
    ∃ d ds, encodeStr s = d :: ds ∧ isDigit d = true := by
  cases hd : natDecimal s.length with
  | nil => exact absurd hd (natDecimal_ne_nil s.length)
  | cons d ds =>
    refine ⟨d, ds ++ 58 :: s, ?_, ?_⟩
    · rw [encodeStr, hd]
      rfl
    · apply natDecimal_digits s.length
      rw [hd]
      exact List.mem_cons_self _ _

theorem parse_encodeStr {s : List Nat} (hs : s.length ≤ 2 ^ 64 - 1)
    (rest : List Nat) :
    parse (encodeStr s ++ rest) = some (Bencode.str s, rest) := by
  obtain ⟨d, ds, hds, hdig⟩ := encodeStr_head s
  have hshape : encodeStr s ++ rest = natDecimal s.length ++ 58 :: (s ++ rest) := by
    rw [encodeStr]
    simp
  have hshape2 : encodeStr s ++ rest = d :: (ds ++ rest) := by
    rw [hds]
    rfl
  have htake : takeUntilByte 58 (encodeStr s ++ rest) =
      some (natDecimal s.length, s ++ rest) := by
    rw [hshape]
    exact takeUntilByte_append (not_mem_natDecimal_58 _) _
  rw [hshape2, parse_str hdig]
  rw [← hshape2]
  simp only [htake, parseU64_natDecimal hs]
  have hlen : s.length ≤ (s ++ rest).length := by
    simp
  rw [if_pos hlen]
  rw [List.take_left, List.drop_left]

theorem encodeB_head (v : Bencode) :
    ∃ c t, encodeB v = c :: t ∧
      (c = 105 ∨ c = 108 ∨ c = 100 ∨ isDigit c = true) := by
  cases v with
  | str s =>
    obtain ⟨d, ds, hds, hdig⟩ := encodeStr_head s
    exact ⟨d, ds, by rw [encodeB_str, hds], Or.inr (Or.inr (Or.inr hdig))⟩
  | int n =>
    exact ⟨105, intDecimal n ++ [101], by rw [encodeB_int]; simp, Or.inl rfl⟩
  | list l =>
    exact ⟨108, encodeList l ++ [101], by rw [encodeB_list]; simp, Or.inr (Or.inl rfl)⟩
  | dict es =>
    exact ⟨100, joinPairs (sortPairs (encodePairs es)) ++ [101],
      by rw [encodeB_dict]; simp, Or.inr (Or.inr (Or.inl rfl))⟩

theorem encodeB_head_ne_101 {v : Bencode} {c : Nat} {t : List Nat}
    (h : encodeB v = c :: t)
    (hc : c = 105 ∨ c = 108 ∨ c = 100 ∨ isDigit c = true) : ¬ c = 101 := by
  rcases hc with h1 | h1 | h1 | h1
  · omega
  · omega
  · omega
  · rw [isDigit] at h1
    simp at h1
    omega

theorem keySorted_append_lt {α : Type} {key : α → List Nat} :
    ∀ (l1 : List α) (x : α) (l2 : List α),
      keySorted key (l1 ++ x :: l2) = true →
      ∀ p ∈ l1, bytesLt (key p) (key x) = true := by
  intro l1
  induction l1 with
  | nil => intro x l2 _ p hp; cases hp
  | cons a t ih =>
    intro x l2 h p hp
    cases hp with
    | head =>
      exact keySorted_cons_all h x
        (List.mem_append_right t (List.mem_cons_self _ _))
    | tail _ hp2 =>
      exact ih x l2 (keySorted_tail h) p hp2

theorem foldl_dictInsert_sorted :
    ∀ (es acc : List (List Nat × Bencode)),
      sortedKeys (acc ++ es) = true →
      List.foldl (fun a p => dictInsert p.1 p.2 a) acc es = acc ++ es := by
  intro es
  induction es with
  | nil => intro acc _; simp
  | cons e t ih =>
    obtain ⟨k, v⟩ := e
    intro acc h
    have hall : ∀ p ∈ acc, bytesLt p.1 k = true := by
      intro p hp
      exact keySorted_append_lt acc (k, v) t h p hp
    have hstep : dictInsert k v acc = acc ++ [(k, v)] := dictInsert_append hall
    simp only [List.foldl_cons]
    rw [hstep]
    have hre : (acc ++ [(k, v)]) ++ t = acc ++ (k, v) :: t := by simp
    rw [ih (acc ++ [(k, v)]) (by rw [hre]; exact h)]
    simp

theorem encodePairs_keySorted :
    ∀ {es : List (List Nat × Bencode)}, sortedKeys es = true →
      keySorted Prod.fst (encodePairs es) = true := by
  intro es
  induction es with
  | nil => intro _; rfl
  | cons e t ih =>
    obtain ⟨k, v⟩ := e
    intro h
    have ht := ih (keySorted_tail h)
    cases t with
    | nil => rfl
    | cons e2 t2 =>
      obtain ⟨k2, v2⟩ := e2
      rw [encodePairs_cons, encodePairs_cons]
      rw [encodePairs_cons] at ht
      simp only [keySorted, Bool.and_eq_true]
      exact ⟨keySorted_head_lt h, ht⟩

theorem sortPairs_of_sorted :
    ∀ {ps : List (List Nat × List Nat)}, keySorted Prod.fst ps = true →
      sortPairs ps = ps := by
  intro ps
  induction ps with
  | nil => intro _; rfl
  | cons p t ih =>
    intro h
    rw [sortPairs, ih (keySorted_tail h)]
    cases t with
    | nil => rfl
    | cons q t2 =>
      rw [insertPair, if_pos (keySorted_head_lt h)]

theorem joinPairs_nil : joinPairs [] = [] := rfl

theorem joinPairs_cons (k bs : List Nat) (es : List (List Nat × List Nat)) :
    joinPairs ((k, bs) :: es) = encodeStr k ++ bs ++ joinPairs es := rfl

theorem validList_member :
    ∀ {l : List Bencode}, validList l = true → ∀ x ∈ l, validB x = true := by
  intro l
  induction l with
  | nil => intro _ x hx; cases hx
  | cons v vs ih =>
    intro h x hx
    rw [validList_cons, Bool.and_eq_true] at h
    cases hx with
    | head => exact h.1
    | tail _ hx2 => exact ih h.2 x hx2

theorem validEntries_member :
    ∀ {es : List (List Nat × Bencode)}, validEntries es = true →
      ∀ p ∈ es, p.1.length ≤ 2 ^ 64 - 1 ∧ validB p.2 = true := by
  intro es
  induction es with
  | nil => intro _ p hp; cases hp
  | cons e t ih =>
    obtain ⟨k, v⟩ := e
    intro h p hp
    rw [validEntries_cons] at h
    simp only [Bool.and_eq_true, decide_eq_true_eq] at h
    cases hp with
    | head => exact ⟨h.1.1, h.1.2⟩
    | tail _ hp2 => exact ih h.2 p hp2

theorem one_le_sizeOf_bencode (v : Bencode) : 1 ≤ sizeOf v := by
  cases v <;> simp <;> omega

theorem itemsW_encodeList :
    ∀ (l : List Bencode),
      (∀ x ∈ l, ∀ r2, parse (encodeB x ++ r2) = some (x, r2)) →
      ∀ rest, itemsW (encodeList l ++ 101 :: rest) = some (l, rest) := by
  intro l
  induction l with
  | nil =>
    intro _ rest
    rw [encodeList_nil, List.nil_append, itemsW_end]
  | cons v vs ih =>
    intro hIH rest
    obtain ⟨c, t, hct, hc⟩ := encodeB_head v
    have hne := encodeB_head_ne_101 hct hc
    have hshape : encodeList (v :: vs) ++ 101 :: rest =
        c :: (t ++ (encodeList vs ++ 101 :: rest)) := by
      rw [encodeList_cons, hct]
      simp
    rw [hshape, itemsW_step hne]
    have hv : parse (c :: (t ++ (encodeList vs ++ 101 :: rest))) =
        some (v, encodeList vs ++ 101 :: rest) := by
      have h2 := hIH v (List.mem_cons_self _ _) (encodeList vs ++ 101 :: rest)
      rw [hct] at h2
      simpa using h2
    simp only [hv, ih (fun x hx => hIH x (List.mem_cons_of_mem _ hx))]

theorem entriesW_encodePairs :
    ∀ (es : List (List Nat × Bencode)),
      (∀ p ∈ es, ∀ r2, parse (encodeB p.2 ++ r2) = some (p.2, r2)) →
      validEntries es = true →
      ∀ acc rest, entriesW acc (joinPairs (encodePairs es) ++ 101 :: rest) =
        some (List.foldl (fun a p => dictInsert p.1 p.2 a) acc es, rest) := by
  intro es
  induction es with
  | nil =>
    intro _ _ acc rest
    rw [encodePairs_nil, joinPairs_nil, List.nil_append, entriesW_end]
    rfl
  | cons e t ih =>
    obtain ⟨k, v⟩ := e
    intro hIH hval acc rest
    rw [validEntries_cons] at hval
    simp only [Bool.and_eq_true, decide_eq_true_eq] at hval
    obtain ⟨⟨hk, hv⟩, ht⟩ := hval
    obtain ⟨d, ds, hds, hdig⟩ := encodeStr_head k
    have hne : ¬ d = 101 := by
      rw [isDigit] at hdig
      simp at hdig
      omega
    have hshape : joinPairs (encodePairs ((k, v) :: t)) ++ 101 :: rest =
        d :: (ds ++ (encodeB v ++ (joinPairs (encodePairs t) ++ 101 :: rest))) := by
      rw [encodePairs_cons, joinPairs_cons, hds]
      simp
    rw [hshape, entriesW_step hne]
    have hkparse :
        parse (d :: (ds ++ (encodeB v ++ (joinPairs (encodePairs t) ++ 101 :: rest)))) =
          some (Bencode.str k,
            encodeB v ++ (joinPairs (encodePairs t) ++ 101 :: rest)) := by
      have h2 := parse_encodeStr hk
        (encodeB v ++ (joinPairs (encodePairs t) ++ 101 :: rest))
      rw [hds] at h2
      simpa using h2
    have hvparse := hIH (k, v) (List.mem_cons_self _ _)
      (joinPairs (encodePairs t) ++ 101 :: rest)
    simp only [hkparse, hvparse]
    rw [ih (fun p hp => hIH p (List.mem_cons_of_mem _ hp)) ht (dictInsert k v acc) rest]
    rfl

theorem parseEncodeAux :
    ∀ N : Nat, ∀ v : Bencode, sizeOf v ≤ N → validB v = true →
      ∀ rest, parse (encodeB v ++ rest) = some (v, rest) := by
  intro N
  induction N with
  | zero =>
    intro v hv
    have := one_le_sizeOf_bencode v
    omega
  | succ N ih =>
    intro v hsize hval rest
    cases v with
    | str s =>
      rw [encodeB_str]
      rw [validB_str] at hval
      simp only [decide_eq_true_eq] at hval
      exact parse_encodeStr hval rest
    | int n =>
      rw [validB_int] at hval
      simp only [Bool.and_eq_true, decide_eq_true_eq] at hval
      exact parse_encodeInt hval.1 hval.2 rest
    | list l =>
      rw [validB_list] at hval
      rw [encodeB_list]
      have hshape : (108 :: encodeList l ++ [101]) ++ rest =
          108 :: (encodeList l ++ 101 :: rest) := by simp
      rw [hshape, parse_list_eq]
      have helems : ∀ x ∈ l, ∀ r2, parse (encodeB x ++ r2) = some (x, r2) := by
        intro x hx r2
        have h1 : sizeOf x < sizeOf l := List.sizeOf_lt_of_mem hx
        have h2 : sizeOf (Bencode.list l) = 1 + sizeOf l := by simp
        exact ih x (by omega) (validList_member hval x hx) r2
      rw [itemsW_encodeList l helems rest]
      rfl
    | dict es =>
      rw [validB_dict] at hval
      simp only [Bool.and_eq_true] at hval
      obtain ⟨hent, hsort⟩ := hval
      rw [encodeB_dict]
      rw [sortPairs_of_sorted (encodePairs_keySorted hsort)]
      have hshape : (100 :: joinPairs (encodePairs es) ++ [101]) ++ rest =
          100 :: (joinPairs (encodePairs es) ++ 101 :: rest) := by simp
      rw [hshape, parse_dict_eq]
      have helems : ∀ p ∈ es, ∀ r2, parse (encodeB p.2 ++ r2) = some (p.2, r2) := by
        intro p hp r2
        have h1 : sizeOf p < sizeOf es := List.sizeOf_lt_of_mem hp
        have h2 : sizeOf (Bencode.dict es) = 1 + sizeOf es := by simp
        have h3 : sizeOf p.2 < sizeOf p := by
          obtain ⟨k2, v2⟩ := p
          simp
        exact ih p.2 (by omega) ((validEntries_member hent p hp).2) r2
      rw [entriesW_encodePairs es helems hent [] rest]
      rw [foldl_dictInsert_sorted es [] (by simpa using hsort)]
      rfl

/-- Parsing the canonical encoding of any representable value recovers the
value exactly and consumes exactly the encoding. -/
theorem parse_encodeB {v : Bencode} (hval : validB v = true) (rest : List Nat) :
    parse (encodeB v ++ rest) = some (v, rest) :=
  parseEncodeAux (sizeOf v) v le_rfl hval rest

/-! ## Claim C2: bencode round-trip laws -/

/-- C2: for every byte stream that is canonically encoded bencode (the
canonical encoding of some representable value: dictionary keys strictly
ascending, integers and lengths in canonical decimal), parsing it succeeds,
consumes it entirely, and re-encoding the parsed value reproduces the
stream byte for byte; and for every parse-able stream, parsing the
re-encoding of the parsed value yields a value equal to the first parse
result. -/
theorem C2_bencode_roundtrip :
    (∀ b : List Nat, (∃ v, validB v = true ∧ encodeB v = b) →
      ∃ w, parse b = some (w, []) ∧ encodeB w = b) ∧
    (∀ (b : List Nat) (v : Bencode) (rest : List Nat),
      parse b = some (v, rest) → parse (encodeB v) = some (v, [])) := by
  constructor
  · rintro b ⟨v, hval, henc⟩
    refine ⟨v, ?_, henc⟩
    have h2 := parse_encodeB hval []
    rw [List.append_nil] at h2
    rw [← henc]
    exact h2
  · intro b v rest h
    have hval := parse_validB h
    have h2 := parse_encodeB hval []
    rwa [List.append_nil] at h2

/-- C2 witness: both laws applied at the concrete stream `i5e`
= [105, 53, 101]. -/
theorem C2_bencode_roundtrip_witness :
    (∃ w, parse [105, 53, 101] = some (w, []) ∧ encodeB w = [105, 53, 101]) ∧
    parse (encodeB (Bencode.int 5)) = some (Bencode.int 5, []) := by
  have henc : encodeB (Bencode.int 5) = [105, 53, 101] := by
    simp [encodeB_int, intDecimal, natDecimal, natToDigits, natToDigitsAux]
  have hval : validB (Bencode.int 5) = true := by
    rw [validB_int]
    decide
  have hparse : parse [105, 53, 101] = some (Bencode.int 5, []) := by
    simp [parse_int, takeUntilByte, parseI64, parseSignDigits, digitsNum,
      digitsVal_cons, digitsVal_nil, isDigit]
  constructor
  · exact C2_bencode_roundtrip.1 [105, 53, 101] ⟨Bencode.int 5, hval, henc⟩
  · exact C2_bencode_roundtrip.2 [105, 53, 101] (Bencode.int 5) [] hparse

/-! ## Claim C7: integer literals `i-42e` and `i-0e` -/

/-- C7 counterexample: the claim says parsing `i-0e` = [105, 45, 48, 101]
returns an error, but `BencodeParser::parse` delegates to Rust's
`i64::from_str`, which accepts `-0` and returns 0, so the parse succeeds
with the integer 0. -/
theorem C7_counterexample :
    parse [105, 45, 48, 101] = some (Bencode.int 0, []) ∧
    ¬ parse [105, 45, 48, 101] = none := by
  have h : parse [105, 45, 48, 101] = some (Bencode.int 0, []) := by
    simp [parse_int, takeUntilByte, parseI64, parseSignDigits, digitsNum,
      digitsVal_cons, digitsVal_nil, isDigit]
  exact ⟨h, by rw [h]; intro hc; cases hc⟩

/-- C7 amended: parsing `i-42e` returns the integer −42; parsing `i-0e`
does not error — the decoder is lenient and returns the integer 0. -/
theorem C7_integer_literals :
    parse [105, 45, 52, 50, 101] = some (Bencode.int (-42), []) ∧
    parse [105, 45, 48, 101] = some (Bencode.int 0, []) := by
  constructor <;>
    simp [parse_int, takeUntilByte, parseI64, parseSignDigits, digitsNum,
      digitsVal_cons, digitsVal_nil, isDigit]

/-! ## Torrent metadata (`parse_torrent_file` in parser.rs) -/

/-- A UTF-8 continuation byte (0x80..0xBF). -/
def isUtf8Cont (b : Nat) : Bool := 128 ≤ b && b ≤ 191

/-- UTF-8 validity of a byte sequence, as checked by Rust's
`String::from_utf8` (RFC 3629: no surrogates, no overlong forms, code
points at most U+10FFFF). -/
def utf8Valid : List Nat → Bool
  | [] => true
  | b :: bs =>
    if b ≤ 127 then utf8Valid bs
    else if 194 ≤ b && b ≤ 223 then
      match bs with
      | c1 :: bs2 => isUtf8Cont c1 && utf8Valid bs2
      | _ => false
    else if b = 224 then
      match bs with
      | c1 :: c2 :: bs2 =>
        (160 ≤ c1 && c1 ≤ 191) && isUtf8Cont c2 && utf8Valid bs2
      | _ => false
    else if 225 ≤ b && b ≤ 236 then
      match bs with
      | c1 :: c2 :: bs2 => isUtf8Cont c1 && isUtf8Cont c2 && utf8Valid bs2
      | _ => false
    else if b = 237 then
      match bs with
      | c1 :: c2 :: bs2 =>
        (128 ≤ c1 && c1 ≤ 159) && isUtf8Cont c2 && utf8Valid bs2
      | _ => false
    else if 238 ≤ b && b ≤ 239 then
      match bs with
      | c1 :: c2 :: bs2 => isUtf8Cont c1 && isUtf8Cont c2 && utf8Valid bs2
      | _ => false
    else if b = 240 then
      match bs with
      | c1 :: c2 :: c3 :: bs2 =>
        (144 ≤ c1 && c1 ≤ 191) && isUtf8Cont c2 && isUtf8Cont c3 && utf8Valid bs2
      | _ => false
    else if 241 ≤ b && b ≤ 243 then
      match bs with
      | c1 :: c2 :: c3 :: bs2 =>
        isUtf8Cont c1 && isUtf8Cont c2 && isUtf8Cont c3 && utf8Valid bs2
      | _ => false
    else if b = 244 then
      match bs with
      | c1 :: c2 :: c3 :: bs2 =>
        (128 ≤ c1 && c1 ≤ 143) && isUtf8Cont c2 && isUtf8Cont c3 && utf8Valid bs2
      | _ => false
    else false

/-- `BencodeValue::as_string`: the byte string must be valid UTF-8 (Rust
returns the `String`; the model keeps its bytes, which determine it). -/
def asString : Bencode → Option (List Nat)
  | Bencode.str s => if utf8Valid s then some s else none
  | _ => none

/-- `BencodeValue::as_bytes`. -/
def asBytes : Bencode → Option (List Nat)
  | Bencode.str s => some s
  | _ => none

/-- `BencodeValue::as_integer`. -/
def asInteger : Bencode → Option Int
  | Bencode.int n => some n
  | _ => none

/-- `BencodeValue::as_list`. -/
def asList : Bencode → Option (List Bencode)
  | Bencode.list l => some l
  | _ => none

/-- `BencodeValue::as_dict`. -/
def asDict : Bencode → Option (List (List Nat × Bencode))
  | Bencode.dict es => some es
  | _ => none

/-- Rust `as u32` applied to an `i64`: truncation to the low 32 bits. -/
def toU32 (i : Int) : Nat := (i.emod (2 ^ 32)).toNat

/-- Rust `as u64` applied to an `i64`: truncation to the low 64 bits. -/
def toU64 (i : Int) : Nat := (i.emod (2 ^ 64)).toNat

/-- `pieces_bytes.chunks(20)` (each chunk copied into a 20-byte array;
the byte length was checked to be divisible by 20). -/
def chunks20 (l : List Nat) : List (List Nat) :=
  if l = [] then [] else l.take 20 :: chunks20 (l.drop 20)
termination_by l.length
decreasing_by
  have : l.length ≠ 0 := by
    intro hc
    exact (by assumption : ¬ l = []) (List.eq_nil_of_length_eq_zero hc)
  simp only [List.length_drop]
  omega

/-- Dictionary key bytes: announce. -/
def keyAnnounce : List Nat := [97, 110, 110, 111, 117, 110, 99, 101]

/-- Dictionary key bytes: announce-list. -/
def keyAnnounceList : List Nat :=
  [97, 110, 110, 111, 117, 110, 99, 101, 45, 108, 105, 115, 116]

/-- Dictionary key bytes: info. -/
def keyInfo : List Nat := [105, 110, 102, 111]

/-- Dictionary key bytes: name. -/
def keyName : List Nat := [110, 97, 109, 101]

/-- Dictionary key bytes: piece length (with a space). -/
def keyPieceLength : List Nat :=
  [112, 105, 101, 99, 101, 32, 108, 101, 110, 103, 116, 104]

/-- Dictionary key bytes: pieces. -/
def keyPieces : List Nat := [112, 105, 101, 99, 101, 115]

/-- Dictionary key bytes: length. -/
def keyLength : List Nat := [108, 101, 110, 103, 116, 104]

/-- Dictionary key bytes: files. -/
def keyFiles : List Nat := [102, 105, 108, 101, 115]

/-- Dictionary key bytes: path. -/
def keyPath : List Nat := [112, 97, 116, 104]

/-- `TorrentFiles`: single-file (`length`) or multi-file (list of
(path segments, length)). -/
inductive TorrentFilesM : Type where
  | single : Nat → TorrentFilesM
  | multiple : List (List (List Nat) × Nat) → TorrentFilesM

/-- `TorrentFile` and its embedded `TorrentInfo`.  `info_hash` is
`SHA-1(bencode_encode(info_value))` in the source; SHA-1 itself is not
modelled, so the model records `infoEncoded` — the exact byte stream fed
to the hash — together with the parsed `info` value `infoVal`. -/
structure TorrentFileM where
  announce : List Nat
  announceList : Option (List (List (List Nat)))
  name : List Nat
  pieceLength : Nat
  pieces : List (List Nat)
  files : TorrentFilesM
  infoVal : Bencode
  infoEncoded : List Nat

/-- One tier of the announce-list: a list of UTF-8 strings. -/
def parseTier (v : Bencode) : Option (List (List Nat)) := do
  let tl ← asList v
  tl.mapM asString

/-- The optional announce-list: a list of tiers. -/
def parseAnnounceList (v : Bencode) : Option (List (List (List Nat))) := do
  let l ← asList v
  l.mapM parseTier

/-- One entry of the multi-file `files` list: `length` and `path`. -/
def parseFileEntry (v : Bencode) : Option (List (List Nat) × Nat) := do
  let fd ← asDict v
  let lenV ← dLookup keyLength fd
  let len ← asInteger lenV
  let pathV ← dLookup keyPath fd
  let pathList ← asList pathV
  let path ← pathList.mapM asString
  pure (path, toU64 len)

/-- The optional `announce-list` extraction: absent is fine, present but
malformed is an error. -/
def parseOptAnnounceList (rootDict : List (List Nat × Bencode)) :
    Option (Option (List (List (List Nat)))) :=
  match dLookup keyAnnounceList rootDict with
  | none => some none
  | some v => (parseAnnounceList v).map some

/-- The `files` determination: a `length` key means single-file, else a
`files` key means multi-file, else the torrent is rejected. -/
def parseFilesField (infoDict : List (List Nat × Bencode)) :
    Option TorrentFilesM :=
  match dLookup keyLength infoDict with
  | some lengthV => (asInteger lengthV).map (fun len => TorrentFilesM.single (toU64 len))
  | none =>
    match dLookup keyFiles infoDict with
    | some filesV => do
        let fl ← asList filesV
        let fs ← fl.mapM parseFileEntry
        pure (TorrentFilesM.multiple fs)
    | none => none

/-- `parse_torrent_file` applied to the bytes `data` that `fs::read`
returned: parse the root value (trailing bytes are ignored), require a
dictionary, extract `announce`, the optional `announce-list`, the `info`
dictionary (recording the re-encoded bytes that the source hashes), then
`name`, `piece length` (cast `as u32`), `pieces` (length divisible by 20,
split into 20-byte chunks), and either `length` (single file, cast
`as u64`) or `files`. -/
def parseTorrentData (data : List Nat) : Option TorrentFileM := do
  let (root, _) ← parse data
  let rootDict ← asDict root
  let announceV ← dLookup keyAnnounce rootDict
  let announce ← asString announceV
  let announceList ← parseOptAnnounceList rootDict
  let infoValue ← dLookup keyInfo rootDict
  let infoDict ← asDict infoValue
  let nameV ← dLookup keyName infoDict
  let name ← asString nameV
  let plV ← dLookup keyPieceLength infoDict
  let plI ← asInteger plV
  let piecesV ← dLookup keyPieces infoDict
  let piecesBytes ← asBytes piecesV
  if piecesBytes.length % 20 = 0 then
    let files ← parseFilesField infoDict
    pure { announce := announce, announceList := announceList, name := name,
           pieceLength := toU32 plI, pieces := chunks20 piecesBytes,
           files := files, infoVal := infoValue,
           infoEncoded := encodeB infoValue }
  else none

/-! ## Claim C1: info-hash bytes vs raw info bytes -/

theorem ptd_infoEncoded : ∀ {data : List Nat} {tf : TorrentFileM},
    parseTorrentData data = some tf → tf.infoEncoded = encodeB tf.infoVal := by
  intro data tf h
  rw [parseTorrentData] at h
  rcases Option.bind_eq_some.mp h with ⟨⟨root, trail⟩, hroot, h⟩
  rcases Option.bind_eq_some.mp h with ⟨rootDict, hrd, h⟩
  rcases Option.bind_eq_some.mp h with ⟨announceV, hav, h⟩
  rcases Option.bind_eq_some.mp h with ⟨announce, han, h⟩
  rcases Option.bind_eq_some.mp h with ⟨announceList, hal, h⟩
  rcases Option.bind_eq_some.mp h with ⟨infoValue, hiv, h⟩
  rcases Option.bind_eq_some.mp h with ⟨infoDict, hid, h⟩
  rcases Option.bind_eq_some.mp h with ⟨nameV, hnv, h⟩
  rcases Option.bind_eq_some.mp h with ⟨name, hn, h⟩
  rcases Option.bind_eq_some.mp h with ⟨plV, hpl, h⟩
  rcases Option.bind_eq_some.mp h with ⟨plI, hpli, h⟩
  rcases Option.bind_eq_some.mp h with ⟨piecesV, hpv, h⟩
  rcases Option.bind_eq_some.mp h with ⟨piecesBytes, hpb, h⟩
  by_cases hc : piecesBytes.length % 20 = 0
  · rw [if_pos hc] at h
    rcases Option.bind_eq_some.mp h with ⟨files, hf, h⟩
    cases h
    rfl
  · rw [if_neg hc] at h
    cases h

/-- The bytes of `d8:announce1:u4:info`, the part of the counterexample
torrent file before the `info` sub-value. -/
def c1Pre : List Nat :=
  [100, 56, 58, 97, 110, 110, 111, 117, 110, 99, 101, 49, 58, 117, 52, 58,
   105, 110, 102, 111]

/-- The raw bytes of the info sub-value
`d4:name0:6:lengthi0e12:piece lengthi1e6:pieces0:e` — a well-formed but
NOT canonically ordered dictionary (`name` appears before `length`). -/
def c1RawInfo : List Nat :=
  [100, 52, 58, 110, 97, 109, 101, 48, 58, 54, 58, 108, 101, 110, 103, 116,
   104, 105, 48, 101, 49, 50, 58, 112, 105, 101, 99, 101, 32, 108, 101, 110,
   103, 116, 104, 105, 49, 101, 54, 58, 112, 105, 101, 99, 101, 115, 48, 58,
   101]

/-- A complete torrent file accepted by `parse_torrent_file` whose `info`
dictionary is not canonically ordered. -/
def c1Data : List Nat := c1Pre ++ c1RawInfo ++ [101]

/-- The parsed info value of the counterexample file. -/
def c1InfoVal : Bencode :=
  Bencode.dict [(keyLength, Bencode.int 0), (keyName, Bencode.str []),
    (keyPieceLength, Bencode.int 1), (keyPieces, Bencode.str [])]

set_option maxHeartbeats 4000000 in
theorem c1_parse_data : parse c1Data =
    some (Bencode.dict [(keyAnnounce, Bencode.str [117]), (keyInfo, c1InfoVal)],
      []) := by
  simp [c1Data, c1Pre, c1RawInfo, c1InfoVal, keyLength, keyName, keyPieceLength,
    keyPieces, keyAnnounce, keyInfo,
    parse_dict_eq, parse_str, parse_int, entriesW_step, entriesW_end,
    takeUntilByte, parseU64, parseI64, parseSignDigits, digitsNum,
    digitsVal_cons, digitsVal_nil, isDigit, dictInsert, bytesLt]

/-- The `TorrentFile` value produced for the counterexample file. -/
def c1TF : TorrentFileM :=
  { announce := [117], announceList := none, name := [], pieceLength := toU32 1,
    pieces := chunks20 [], files := TorrentFilesM.single (toU64 0),
    infoVal := c1InfoVal, infoEncoded := encodeB c1InfoVal }

theorem c1_ptd : parseTorrentData c1Data = some c1TF := by
  rw [parseTorrentData, c1_parse_data]
  rfl

set_option maxHeartbeats 4000000 in
theorem c1_enc : encodeB c1InfoVal =
    [100, 54, 58, 108, 101, 110, 103, 116, 104, 105, 48, 101,
     52, 58, 110, 97, 109, 101, 48, 58,
     49, 50, 58, 112, 105, 101, 99, 101, 32, 108, 101, 110, 103, 116, 104,
     105, 49, 101, 54, 58, 112, 105, 101, 99, 101, 115, 48, 58, 101] := by
  simp [c1InfoVal, keyLength, keyName, keyPieceLength, keyPieces,
    encodeB_dict, encodeB_str, encodeB_int, encodePairs_cons, encodePairs_nil,
    sortPairs, insertPair, bytesLt, joinPairs_cons, joinPairs_nil, encodeStr,
    natDecimal, natToDigits, natToDigitsAux, intDecimal]

/-- C1 counterexample: a torrent file accepted by `parse_torrent_file`
whose `info` dictionary is not canonically ordered (`name` written before
`length`).  The raw `info` sub-value bytes appear literally in the file
and decode to exactly the parsed `info` value, yet the byte stream the
implementation feeds to SHA-1 (`infoEncoded`, obtained by re-encoding the
decoded sub-value with sorted keys) differs from those raw bytes — so the
computed info-hash is not the SHA-1 of the raw `info` bytes. -/
theorem C1_counterexample :
    parseTorrentData c1Data = some c1TF ∧
    c1Data = c1Pre ++ c1RawInfo ++ [101] ∧
    parse c1RawInfo = some (c1TF.infoVal, []) ∧
    c1TF.infoEncoded ≠ c1RawInfo := by
  refine ⟨c1_ptd, rfl, ?_, ?_⟩
  · show parse c1RawInfo = some (c1InfoVal, [])
    simp [c1RawInfo, c1InfoVal, keyLength, keyName, keyPieceLength, keyPieces,
      parse_dict_eq, parse_str, parse_int, entriesW_step, entriesW_end,
      takeUntilByte, parseU64, parseI64, parseSignDigits, digitsNum,
      digitsVal_cons, digitsVal_nil, isDigit, dictInsert, bytesLt]
  · show encodeB c1InfoVal ≠ c1RawInfo
    rw [c1_enc, c1RawInfo]
    decide

/-- C1 amended: for every torrent file accepted by `parse_torrent_file`,
the 20-byte info-hash is the SHA-1 of the re-encoding of the decoded
`info` sub-value; those hashed bytes equal the raw bytes that encoded the
`info` sub-value in the file whenever that raw sub-value is canonically
encoded (dictionary keys strictly ascending, canonical decimal integers
and lengths).  For files whose `info` dictionary is not canonically
ordered the hashed bytes differ from the raw bytes. -/
theorem C1_infohash_canonical :
    ∀ (data pre raw suf : List Nat) (tf : TorrentFileM),
      parseTorrentData data = some tf →
      data = pre ++ raw ++ suf →
      parse raw = some (tf.infoVal, []) →
      (∃ w, validB w = true ∧ encodeB w = raw) →
      tf.infoEncoded = raw := by
  rintro data pre raw suf tf htf hdata hraw ⟨w, hwv, hwe⟩
  have h2 : parse raw = some (w, []) := by
    rw [← hwe]
    have h3 := parse_encodeB hwv []
    rwa [List.append_nil] at h3
  have h4 : some (tf.infoVal, ([] : List Nat)) = some (w, []) := by
    rw [← hraw, h2]
  have h5 : tf.infoVal = w := congrArg Prod.fst (Option.some.inj h4)
  rw [ptd_infoEncoded htf, h5, hwe]

/-- The root value of the canonical witness file: same torrent as the
counterexample, with the info dictionary canonically encoded. -/
def c1RootVal : Bencode :=
  Bencode.dict [(keyAnnounce, Bencode.str [117]), (keyInfo, c1InfoVal)]

/-- The canonical witness file: the canonical encoding of `c1RootVal`. -/
def c1CanonData : List Nat := encodeB c1RootVal

theorem c1_root_valid : validB c1RootVal = true := by decide

theorem c1_info_valid : validB c1InfoVal = true := by decide

theorem c1_canon_parse : parse c1CanonData = some (c1RootVal, []) := by
  rw [c1CanonData]
  have h := parse_encodeB c1_root_valid []
  rwa [List.append_nil] at h

theorem c1_canon_ptd : parseTorrentData c1CanonData = some c1TF := by
  rw [parseTorrentData, c1_canon_parse]
  rfl

set_option maxHeartbeats 4000000 in
theorem c1_canon_split : c1CanonData = c1Pre ++ encodeB c1InfoVal ++ [101] := by
  rw [c1_enc]
  simp [c1CanonData, c1RootVal, c1Pre, keyAnnounce, keyInfo, keyLength,
    keyName, keyPieceLength, keyPieces, c1InfoVal,
    encodeB_dict, encodeB_str, encodeB_int, encodePairs_cons, encodePairs_nil,
    sortPairs, insertPair, bytesLt, joinPairs_cons, joinPairs_nil, encodeStr,
    natDecimal, natToDigits, natToDigitsAux, intDecimal]

/-- C1 witness: the amended theorem applied at the canonical witness
file, where the hashed bytes do equal the raw info bytes. -/
theorem C1_infohash_canonical_witness :
    parseTorrentData c1CanonData = some c1TF ∧
    c1TF.infoEncoded = encodeB c1InfoVal := by
  refine ⟨c1_canon_ptd, ?_⟩
  exact C1_infohash_canonical c1CanonData c1Pre (encodeB c1InfoVal) [101] c1TF
    c1_canon_ptd c1_canon_split
    (by
      have h := parse_encodeB c1_info_valid []
      rwa [List.append_nil] at h)
    ⟨c1InfoVal, c1_info_valid, rfl⟩

/-! ## Claim C3: percent-encoding in `TrackerClient::announce` (tracker.rs) -/

/-- ASCII alphanumeric byte. -/
def isAsciiAlphaNum (b : Nat) : Bool :=
  (65 ≤ b && b ≤ 90) || (97 ≤ b && b ≤ 122) || (48 ≤ b && b ≤ 57)

/-- RFC 3986 unreserved byte: alphanumeric or `-` `_` `.` `~`. -/
def isUnreservedByte (b : Nat) : Bool :=
  isAsciiAlphaNum b || b = 45 || b = 95 || b = 46 || b = 126

/-- Uppercase hexadecimal digit character of a value below 16. -/
def hexDigitUpper (n : Nat) : Nat := if n < 10 then 48 + n else 55 + n

/-- `percent_encoding::percent_encode(bytes, NON_ALPHANUMERIC)`, the
encoding `TrackerClient::announce` applies to the raw `info_hash` and
`peer_id` bytes: every byte that is not ASCII alphanumeric becomes `%HH`
(uppercase hex); alphanumeric bytes are emitted literally. -/
def percentEncodeNonAlphanumeric : List Nat → List Nat
  | [] => []
  | b :: bs =>
    (if isAsciiAlphaNum b then [b]
     else [37, hexDigitUpper (b / 16), hexDigitUpper (b % 16)]) ++
      percentEncodeNonAlphanumeric bs

/-- `TrackerClient::url_encode_bytes` (defined in tracker.rs, and the
byte-literal RFC 3986 rule the spec states; `announce` does not call it):
bytes in the unreserved set stay literal, everything else becomes `%HH`. -/
def url_encode_bytes : List Nat → List Nat
  | [] => []
  | b :: bs =>
    (if isUnreservedByte b then [b]
     else [37, hexDigitUpper (b / 16), hexDigitUpper (b % 16)]) ++
      url_encode_bytes bs

/-- Query fragment bytes of `info_hash=`. -/
def qsInfoHash : List Nat := [105, 110, 102, 111, 95, 104, 97, 115, 104, 61]

/-- Query fragment bytes of `&peer_id=`. -/
def qsPeerId : List Nat := [38, 112, 101, 101, 114, 95, 105, 100, 61]

/-- Query fragment bytes of `&port=`. -/
def qsPort : List Nat := [38, 112, 111, 114, 116, 61]

/-- Query fragment bytes of `&uploaded=`. -/
def qsUploaded : List Nat := [38, 117, 112, 108, 111, 97, 100, 101, 100, 61]

/-- Query fragment bytes of `&downloaded=`. -/
def qsDownloaded : List Nat :=
  [38, 100, 111, 119, 110, 108, 111, 97, 100, 101, 100, 61]

/-- Query fragment bytes of `&left=`. -/
def qsLeft : List Nat := [38, 108, 101, 102, 116, 61]

/-- Query fragment bytes of `&compact=`. -/
def qsCompact : List Nat := [38, 99, 111, 109, 112, 97, 99, 116, 61]

/-- Query fragment bytes of `&no_peer_id=1`. -/
def qsNoPeerId : List Nat :=
  [38, 110, 111, 95, 112, 101, 101, 114, 95, 105, 100, 61, 49]

/-- Query fragment bytes of `&numwant=`. -/
def qsNumwant : List Nat := [38, 110, 117, 109, 119, 97, 110, 116, 61]

/-- The query string built by `TrackerClient::announce` (the bytes of the
`format!` result, with the optional `no_peer_id` and `numwant` pieces
appended).  `url.set_query` percent-escapes only control bytes, space,
quote, `<` and `>` — none of which occur here — so these bytes reach the
tracker unchanged. -/
def announceQuery (infoHash peerId : List Nat)
    (port uploaded downloaded left : Nat) (compact noPeerId : Bool)
    (numwant : Option Nat) : List Nat :=
  qsInfoHash ++ percentEncodeNonAlphanumeric infoHash ++
  qsPeerId ++ percentEncodeNonAlphanumeric peerId ++
  qsPort ++ natDecimal port ++
  qsUploaded ++ natDecimal uploaded ++
  qsDownloaded ++ natDecimal downloaded ++
  qsLeft ++ natDecimal left ++
  qsCompact ++ (if compact then [49] else [48]) ++
  (if noPeerId then qsNoPeerId else []) ++
  (match numwant with
   | some n => qsNumwant ++ natDecimal n
   | none => [])

/-- Modelled from the claim's words: the query that byte-literal RFC 3986
encoding of `info_hash` and `peer_id` would produce (the unreserved set
kept literal), to be compared with the query `announce` builds. -/
def announceQuerySpec (infoHash peerId : List Nat)
    (port uploaded downloaded left : Nat) (compact noPeerId : Bool)
    (numwant : Option Nat) : List Nat :=
  qsInfoHash ++ url_encode_bytes infoHash ++
  qsPeerId ++ url_encode_bytes peerId ++
  qsPort ++ natDecimal port ++
  qsUploaded ++ natDecimal uploaded ++
  qsDownloaded ++ natDecimal downloaded ++
  qsLeft ++ natDecimal left ++
  qsCompact ++ (if compact then [49] else [48]) ++
  (if noPeerId then qsNoPeerId else []) ++
  (match numwant with
   | some n => qsNumwant ++ natDecimal n
   | none => [])

/-- Value of an ASCII hex digit character (`0-9`, `A-F`, `a-f`). -/
def hexVal (c : Nat) : Option Nat :=
  if 48 ≤ c ∧ c ≤ 57 then some (c - 48)
  else if 65 ≤ c ∧ c ≤ 70 then some (c - 55)
  else if 97 ≤ c ∧ c ≤ 102 then some (c - 87)
  else none

/-- Percent-decoding (what the tracker performs on the received query):
`%HH` becomes the byte HH, other bytes stand for themselves. -/
def percentDecode : List Nat → Option (List Nat)
  | [] => some []
  | b :: rest =>
    if b = 37 then
      match rest with
      | h2 :: l2 :: rest2 => do
          let hv ← hexVal h2
          let lv ← hexVal l2
          let r ← percentDecode rest2
          pure ((16 * hv + lv) :: r)
      | _ => none
    else (percentDecode rest).map (fun r => b :: r)

theorem hexVal_hexDigitUpper {n : Nat} (h : n < 16) :
    hexVal (hexDigitUpper n) = some n := by
  rw [hexDigitUpper]
  by_cases h10 : n < 10
  · rw [if_pos h10, hexVal, if_pos (by omega)]
    congr 1
    omega
  · rw [if_neg h10, hexVal, if_neg (by omega), if_pos (by omega)]
    congr 1
    omega

theorem percentDecode_encode :
    ∀ bs : List Nat, (∀ b ∈ bs, b < 256) →
      percentDecode (percentEncodeNonAlphanumeric bs) = some bs := by
  intro bs
  induction bs with
  | nil => intro _; rfl
  | cons b rest ih =>
    intro hb
    have hbb : b < 256 := hb b (List.mem_cons_self _ _)
    have hrest := ih (fun x hx => hb x (List.mem_cons_of_mem _ hx))
    rw [percentEncodeNonAlphanumeric]
    by_cases ha : isAsciiAlphaNum b = true
    · rw [if_pos ha]
      have hne : ¬ b = 37 := by
        rw [isAsciiAlphaNum] at ha
        simp at ha
        omega
      show percentDecode (b :: percentEncodeNonAlphanumeric rest) = _
      rw [percentDecode.eq_def]
      simp only []
      rw [if_neg hne, hrest]
      rfl
    · rw [if_neg ha]
      show percentDecode (37 :: hexDigitUpper (b / 16) :: hexDigitUpper (b % 16)
        :: percentEncodeNonAlphanumeric rest) = _
      rw [percentDecode.eq_def]
      simp only []
      rw [if_pos trivial]
      simp only [hexVal_hexDigitUpper (by omega : b / 16 < 16),
        hexVal_hexDigitUpper (by omega : b % 16 < 16), hrest,
        Option.bind_eq_bind, Option.some_bind]
      have : 16 * (b / 16) + b % 16 = b := by omega
      rw [this]
      rfl

/-- C3 counterexample: the claim requires every byte of the RFC 3986
unreserved set to appear literally in the query `announce` builds, but
`announce` uses `percent_encoding::NON_ALPHANUMERIC`, which escapes the
unreserved bytes `-` `_` `.` `~` too: for an `info_hash` containing byte
45 = `-`, the query differs from the byte-literal one (the dash is sent
as `%2D`); `url_encode_bytes`, which does implement the claimed rule, is
never called by `announce`. -/
theorem C3_counterexample :
    percentEncodeNonAlphanumeric [45] = [37, 50, 68] ∧
    url_encode_bytes [45] = [45] ∧
    announceQuery [45] [] 0 0 0 0 true false none ≠
      announceQuerySpec [45] [] 0 0 0 0 true false none := by
  refine ⟨by decide, by decide, ?_⟩
  rw [announceQuery.eq_def, announceQuerySpec.eq_def]
  decide

/-- C3 amended: in the query string built by `TrackerClient::announce`,
the raw `info_hash` and `peer_id` bytes are percent-encoded with the
`NON_ALPHANUMERIC` set: every ASCII alphanumeric byte appears literally
and every other byte — including the unreserved `-` `_` `.` `~` — appears
as uppercase `%HH`.  No byte is interpreted as UTF-8 or double-encoded:
percent-decoding the encoded field recovers the 20 raw bytes exactly. -/
theorem C3_announce_encoding :
    (∀ infoHash peerId : List Nat, ∀ port uploaded downloaded left : Nat,
      ∀ compact noPeerId : Bool, ∀ numwant : Option Nat,
      ∃ tail : List Nat,
        announceQuery infoHash peerId port uploaded downloaded left compact
            noPeerId numwant =
          qsInfoHash ++ (percentEncodeNonAlphanumeric infoHash ++
            (qsPeerId ++ (percentEncodeNonAlphanumeric peerId ++ tail)))) ∧
    (∀ bs : List Nat, (∀ b ∈ bs, b < 256) →
      percentDecode (percentEncodeNonAlphanumeric bs) = some bs) ∧
    (∀ b : Nat, isAsciiAlphaNum b = true →
      percentEncodeNonAlphanumeric [b] = [b]) ∧
    (∀ b : Nat, isAsciiAlphaNum b = false →
      percentEncodeNonAlphanumeric [b] =
        [37, hexDigitUpper (b / 16), hexDigitUpper (b % 16)]) := by
  refine ⟨?_, percentDecode_encode, ?_, ?_⟩
  · intro infoHash peerId port uploaded downloaded left compact noPeerId numwant
    refine ⟨qsPort ++ natDecimal port ++ qsUploaded ++ natDecimal uploaded ++
      qsDownloaded ++ natDecimal downloaded ++ qsLeft ++ natDecimal left ++
      qsCompact ++ (if compact then [49] else [48]) ++
      (if noPeerId then qsNoPeerId else []) ++
      (match numwant with
       | some n => qsNumwant ++ natDecimal n
       | none => []), ?_⟩
    rw [announceQuery.eq_def]
    simp [List.append_assoc]
  · intro b hb
    rw [percentEncodeNonAlphanumeric, if_pos hb]
    rfl
  · intro b hb
    rw [percentEncodeNonAlphanumeric, if_neg (by rw [hb]; simp)]
    rfl

/-- C3 witness: the amended theorem applied at concrete bytes — the
query for a one-byte hash [45], the decode round-trip on [45], the
literal alphanumeric byte 65 = `A`, and the escaped byte 45 = `-`. -/
theorem C3_announce_encoding_witness :
    (∃ tail : List Nat,
      announceQuery [45] [66] 1 0 0 0 true false none =
        qsInfoHash ++ (percentEncodeNonAlphanumeric [45] ++
          (qsPeerId ++ (percentEncodeNonAlphanumeric [66] ++ tail)))) ∧
    percentDecode (percentEncodeNonAlphanumeric [45]) = some [45] ∧
    percentEncodeNonAlphanumeric [65] = [65] ∧
    percentEncodeNonAlphanumeric [45] =
      [37, hexDigitUpper (45 / 16), hexDigitUpper (45 % 16)] := by
  refine ⟨C3_announce_encoding.1 [45] [66] 1 0 0 0 true false none,
    C3_announce_encoding.2.1 [45] (by decide),
    C3_announce_encoding.2.2.1 65 (by decide),
    C3_announce_encoding.2.2.2 45 (by decide)⟩

/-! ## Claim C4: handshake validation (wire.rs / peer_manager.rs) -/

/-- The 19 bytes of the protocol string `BitTorrent protocol`. -/
def btProtocol : List Nat :=
  [66, 105, 116, 84, 111, 114, 114, 101, 110, 116, 32, 112, 114, 111, 116,
   111, 99, 111, 108]

/-- `Handshake`: the two 20-byte fields. -/
structure HandshakeM where
  infoHash : List Nat
  peerId : List Nat

/-- `Handshake::serialize`: pstrlen 19, protocol string, 8 reserved zero
bytes, info_hash, peer_id — 68 bytes. -/
def handshakeSerialize (h : HandshakeM) : List Nat :=
  19 :: btProtocol ++ List.replicate 8 0 ++ h.infoHash ++ h.peerId

/-- `Handshake::deserialize`: reject unless the buffer is exactly 68
bytes with first byte 19 and bytes 1..20 equal to the protocol string;
the received info_hash is bytes 28..48 and the peer_id bytes 48..68.  The
reserved bytes are ignored and no comparison of the info_hash happens
here. -/
def handshakeDeserialize (data : List Nat) : Option HandshakeM :=
  if data.length ≠ 68 then none
  else if data.getD 0 0 ≠ 19 then none
  else if (data.drop 1).take 19 ≠ btProtocol then none
  else some { infoHash := (data.drop 28).take 20, peerId := (data.drop 48).take 20 }

/-- The connection state `PeerClient::connect` builds (address and stream
omitted). -/
structure PeerClientM where
  peerId : List Nat
  infoHash : List Nat

/-- `PeerClient::connect` after the TCP stream is open: our handshake
(carrying `advInfoHash` and `advPeerId`) is sent, then exactly 68 bytes
are read and deserialized (`receive_handshake` turns `None` into an I/O
error).  On success the client records the PEER's `peer_id` and the
PEER's `info_hash`; the received `info_hash` is never compared with the
advertised one. -/
def connectModel (advInfoHash advPeerId received : List Nat) :
    Option PeerClientM :=
  match handshakeDeserialize received with
  | none => none
  | some h => some { peerId := h.peerId, infoHash := h.infoHash }

theorem handshakeDeserialize_none_iff (data : List Nat) :
    handshakeDeserialize data = none ↔
      (data.length ≠ 68 ∨ data.getD 0 0 ≠ 19 ∨
        (data.drop 1).take 19 ≠ btProtocol) := by
  rw [handshakeDeserialize]
  by_cases h1 : data.length ≠ 68
  · rw [if_pos h1]
    exact iff_of_true rfl (Or.inl h1)
  · rw [if_neg h1]
    by_cases h2 : data.getD 0 0 ≠ 19
    · rw [if_pos h2]
      exact iff_of_true rfl (Or.inr (Or.inl h2))
    · rw [if_neg h2]
      by_cases h3 : (data.drop 1).take 19 ≠ btProtocol
      · rw [if_pos h3]
        exact iff_of_true rfl (Or.inr (Or.inr h3))
      · rw [if_neg h3]
        exact iff_of_false (by intro hc; cases hc)
          (fun hc => hc.elim h1 (fun hc2 => hc2.elim h2 h3))

/-- A received handshake with correct length, prefix byte and protocol
string, whose info_hash (twenty 2s) differs from the advertised one
(twenty 1s); its peer_id is twenty 3s. -/
def c4Received : List Nat :=
  19 :: btProtocol ++ List.replicate 8 0 ++ List.replicate 20 2 ++
    List.replicate 20 3

/-- C4 counterexample: `PeerClient::connect` ACCEPTS a well-framed
handshake whose info_hash differs from the advertised one — the claimed
rejection on info_hash mismatch does not happen; the connection is
returned with the peer's id and the peer's (different) info_hash
recorded. -/
theorem C4_counterexample :
    connectModel (List.replicate 20 1) (List.replicate 20 4) c4Received =
      some { peerId := List.replicate 20 3, infoHash := List.replicate 20 2 } ∧
    (c4Received.drop 28).take 20 ≠ List.replicate 20 1 := by
  constructor
  · rfl
  · decide

/-- C4 amended: `PeerClient::connect` rejects the received 68-byte
handshake iff its length is not 68, its first byte is not 19, or its
protocol string differs from `BitTorrent protocol`.  The received
info_hash is NOT validated against the advertised one; on success the
peer's peer_id is recorded, and the peer's info_hash overwrites the
advertised info_hash in the client state. -/
theorem C4_handshake_validation :
    ∀ advInfoHash advPeerId received : List Nat,
      (connectModel advInfoHash advPeerId received = none ↔
        (received.length ≠ 68 ∨ received.getD 0 0 ≠ 19 ∨
          (received.drop 1).take 19 ≠ btProtocol)) ∧
      (∀ pc : PeerClientM,
        connectModel advInfoHash advPeerId received = some pc →
        pc.peerId = (received.drop 48).take 20 ∧
        pc.infoHash = (received.drop 28).take 20) := by
  intro a b received
  constructor
  · rw [← handshakeDeserialize_none_iff]
    rw [connectModel]
    cases hd : handshakeDeserialize received with
    | none => simp
    | some h => simp
  · intro pc hpc
    rw [connectModel] at hpc
    cases hd : handshakeDeserialize received with
    | none => rw [hd] at hpc; cases hpc
    | some h =>
      rw [hd] at hpc
      have h2 : some { peerId := h.peerId, infoHash := h.infoHash : PeerClientM } =
          some pc := hpc
      cases h2
      rw [handshakeDeserialize] at hd
      by_cases h1 : received.length ≠ 68
      · rw [if_pos h1] at hd; cases hd
      · rw [if_neg h1] at hd
        by_cases h2 : received.getD 0 0 ≠ 19
        · rw [if_pos h2] at hd; cases hd
        · rw [if_neg h2] at hd
          by_cases h3 : (received.drop 1).take 19 ≠ btProtocol
          · rw [if_pos h3] at hd; cases hd
          · rw [if_neg h3] at hd
            cases hd
            exact ⟨rfl, rfl⟩

/-- C4 witness: the amended theorem applied at the concrete mismatched
handshake `c4Received`: the recorded fields are the peer's bytes. -/
theorem C4_handshake_validation_witness :
    List.replicate 20 3 = (c4Received.drop 48).take 20 ∧
    List.replicate 20 2 = (c4Received.drop 28).take 20 := by
  exact (C4_handshake_validation (List.replicate 20 1) (List.replicate 20 4)
    c4Received).2
    { peerId := List.replicate 20 3, infoHash := List.replicate 20 2 } (by rfl)

/-! ## Claim C5: piece sizing (download.rs, `Downloader::get_piece_size`) -/

/-- `Downloader::get_piece_size` for a torrent with total size `ts`
(u64), piece length `pl` (u32) and `n = pieces.len()` pieces, at piece
index `i` (a u32): the last piece gets `total_size % piece_length`
(cast `as u32`) unless that remainder is zero, every other piece gets
`piece_length`.  The u32 truncations of `(n - 1) as u32` and
`remaining as u32` are written out; the `usize` underflow of `n - 1`
when `n = 0` (a panic in the source) is outside the theorem's
hypotheses, which require at least one piece. -/
def getPieceSize (ts pl n i : Nat) : Nat :=
  if i = (n - 1) % 2 ^ 32 then
    if ts % pl = 0 then pl else (ts % pl) % 2 ^ 32
  else pl

/-- C5: for every descriptor with `n` pieces satisfying the invariant
`ceil(total_size / piece_length) = n` (piece length a positive u32, the
piece count addressable by the u32 piece indices the code uses),
`get_piece_size` returns `piece_length` for every index before the last,
returns `total_size mod piece_length` for the last index (or
`piece_length` when that remainder is zero), and the piece sizes sum to
`total_size`. -/
theorem C5_piece_sizing :
    ∀ ts pl n : Nat, 0 < pl → pl < 2 ^ 32 → 0 < n → n ≤ 2 ^ 32 →
      (ts + pl - 1) / pl = n →
      (∀ i, i + 1 < n → getPieceSize ts pl n i = pl) ∧
      (getPieceSize ts pl n (n - 1) =
        if ts % pl = 0 then pl else ts % pl) ∧
      (Finset.range n).sum (getPieceSize ts pl n) = ts := by
  intro ts pl n hpl hpl32 hn hn32 hceil
  have hmodn : (n - 1) % 2 ^ 32 = n - 1 := Nat.mod_eq_of_lt (by omega)
  have hrlt : ts % pl < pl := Nat.mod_lt ts hpl
  have hpart1 : ∀ i, i + 1 < n → getPieceSize ts pl n i = pl := by
    intro i hi
    rw [getPieceSize, hmodn, if_neg (by omega)]
  have hlast : getPieceSize ts pl n (n - 1) =
      if ts % pl = 0 then pl else ts % pl := by
    rw [getPieceSize, hmodn, if_pos rfl]
    by_cases hr : ts % pl = 0
    · rw [if_pos hr, if_pos hr]
    · rw [if_neg hr, if_neg hr]
      exact Nat.mod_eq_of_lt (by omega)
  refine ⟨hpart1, hlast, ?_⟩
  have hconst : (Finset.range (n - 1)).sum (getPieceSize ts pl n) =
      (n - 1) * pl := by
    rw [Finset.sum_congr rfl (fun i hi => hpart1 i (by
      have := Finset.mem_range.mp hi
      omega))]
    rw [Finset.sum_const, Finset.card_range, smul_eq_mul]
  have hsplit := Finset.sum_range_succ (getPieceSize ts pl n) (n - 1)
  rw [show n - 1 + 1 = n from by omega] at hsplit
  rw [hsplit, hconst, hlast]
  have hdm := Nat.div_add_mod ts pl
  by_cases hr : ts % pl = 0
  · rw [if_pos hr]
    have e1 : ts + pl - 1 = pl * (ts / pl) + (pl - 1) := by omega
    have e2 : (ts + pl - 1) / pl = ts / pl := by
      rw [e1, Nat.mul_add_div hpl,
        Nat.div_eq_of_lt (show pl - 1 < pl by omega), Nat.add_zero]
    have hq1 : 0 < ts / pl := by omega
    have e3 : (n - 1) * pl + pl = ((n - 1) + 1) * pl := (Nat.succ_mul _ _).symm
    rw [e3, show n - 1 + 1 = n from by omega]
    have e4 : n * pl = pl * n := Nat.mul_comm _ _
    have e5 : n = ts / pl := by omega
    rw [e4, e5]
    omega
  · rw [if_neg hr]
    have em : pl * (ts / pl + 1) = pl * (ts / pl) + pl := Nat.mul_succ pl _
    have e1 : ts + pl - 1 = pl * (ts / pl + 1) + (ts % pl - 1) := by omega
    have e2 : (ts + pl - 1) / pl = ts / pl + 1 := by
      rw [e1, Nat.mul_add_div hpl,
        Nat.div_eq_of_lt (show ts % pl - 1 < pl by omega), Nat.add_zero]
    have e5 : n - 1 = ts / pl := by omega
    rw [e5]
    have e4 : ts / pl * pl = pl * (ts / pl) := Nat.mul_comm _ _
    rw [e4]
    omega

/-- C5 witness: the spec's single-file scenario — piece length 32768,
total size 81920, three pieces; the last piece is 16384 bytes and the
sizes sum to the total. -/
theorem C5_piece_sizing_witness :
    getPieceSize 81920 32768 3 0 = 32768 ∧
    getPieceSize 81920 32768 3 2 =
      (if 81920 % 32768 = 0 then 32768 else 81920 % 32768) ∧
    (Finset.range 3).sum (getPieceSize 81920 32768 3) = 81920 := by
  have h := C5_piece_sizing 81920 32768 3 (by decide) (by decide) (by decide)
    (by decide) (by decide)
  exact ⟨h.1 0 (by decide), h.2.1, h.2.2⟩

/-! ## Piece buffers (download.rs, `Block` / `PieceBuffer`)

`Block` and `PieceBuffer` from download.rs.  `blocks:
HashMap<u32, Block>` (keyed by begin offset) is modelled as an
insertion-ordered association list; Rust's `HashMap::values` iterates in
an unspecified order, so theorems below only state iteration-order
independent facts.  `received_size += block.data.len() as u32` is u32
arithmetic, modelled with explicit `% 2 ^ 32`. -/

structure BlockM where
  index : Nat
  begin : Nat
  data : List Nat
deriving DecidableEq

structure PieceBufferM where
  blocks : List (Nat × BlockM)
  total_size : Nat
  received_size : Nat
deriving DecidableEq

/-- `HashMap::contains_key` on the association list. -/
def containsKey (bs : List (Nat × BlockM)) (k : Nat) : Bool :=
  bs.any (fun p => p.1 == k)

/-- `PieceBuffer::new(piece_size)`. -/
def newPieceBuffer (piece_size : Nat) : PieceBufferM :=
  ⟨[], piece_size, 0⟩

/-- `PieceBuffer::is_complete`. -/
def is_complete (buf : PieceBufferM) : Bool :=
  decide (buf.total_size ≤ buf.received_size)

/-- `PieceBuffer::add_block`: insert only when the begin offset is not
yet present, add the data length (as u32) to `received_size`, and
return the new buffer together with the returned `is_complete` flag. -/
def add_block (buf : PieceBufferM) (block : BlockM) : PieceBufferM × Bool :=
  let buf2 :=
    if containsKey buf.blocks block.begin then buf
    else { buf with
      received_size := (buf.received_size + block.data.length % 2 ^ 32) % 2 ^ 32,
      blocks := buf.blocks ++ [(block.begin, block)] }
  (buf2, is_complete buf2)

/-- C8: inserting a second block whose begin offset is already present
(in particular, inserting the same block twice) leaves the buffer
unchanged — the stored block for that offset remains the first one
inserted and `received_size` does not increase — and `add_block` again
reports the unchanged buffer's completeness. -/
theorem C8_duplicate_blocks :
    ∀ (buf : PieceBufferM) (b b' : BlockM), b'.begin = b.begin →
      add_block (add_block buf b).1 b' =
        ((add_block buf b).1, is_complete (add_block buf b).1) := by
  intro buf b b' hb
  have hc : containsKey (add_block buf b).1.blocks b.begin = true := by
    simp only [add_block]
    by_cases h : containsKey buf.blocks b.begin = true
    · rw [if_pos h]
      exact h
    · rw [if_neg h]
      simp [containsKey]
  have key : ∀ (c : PieceBufferM), containsKey c.blocks b'.begin = true →
      add_block c b' = (c, is_complete c) := by
    intro c hcc
    simp only [add_block]
    rw [if_pos hcc]
  apply key
  rw [hb]
  exact hc

/-- C8 witness: a concrete double insert of the same block is dropped. -/
theorem C8_duplicate_blocks_witness :
    add_block (add_block (PieceBufferM.mk [] 2 0) (BlockM.mk 0 0 [9])).1
        (BlockM.mk 0 0 [9]) =
      ((add_block (PieceBufferM.mk [] 2 0) (BlockM.mk 0 0 [9])).1,
        is_complete (add_block (PieceBufferM.mk [] 2 0) (BlockM.mk 0 0 [9])).1) :=
  C8_duplicate_blocks (PieceBufferM.mk [] 2 0) (BlockM.mk 0 0 [9])
    (BlockM.mk 0 0 [9]) rfl

/-! ## Claim C10: `PieceBuffer::assemble` -/

/-- One write of `piece_data[start..end].copy_from_slice(&block.data)`
guarded by `if end <= piece_data.len()`: blocks that do not fit are
silently discarded. -/
def writeAt (arr : List Nat) (start : Nat) (data : List Nat) : List Nat :=
  if start + data.length ≤ arr.length then
    arr.take start ++ data ++ arr.drop (start + data.length)
  else arr

/-- The body of assemble's `for block in self.blocks.values()` loop. -/
def assembleStep (acc : List Nat) (p : Nat × BlockM) : List Nat :=
  writeAt acc p.2.begin p.2.data

/-- `PieceBuffer::assemble`: a zeroed buffer of `total_size` bytes with
every stored block copied in (iteration order of the association list;
the theorems below are iteration-order independent, matching the
unspecified `HashMap::values` order). -/
def assemble (buf : PieceBufferM) : List Nat :=
  buf.blocks.foldl assembleStep (List.replicate buf.total_size 0)

theorem writeAt_length (arr : List Nat) (start : Nat) (data : List Nat) :
    (writeAt arr start data).length = arr.length := by
  rw [writeAt]
  by_cases h : start + data.length ≤ arr.length
  · rw [if_pos h]
    simp only [List.length_append, List.length_take, List.length_drop]
    omega
  · rw [if_neg h]

theorem foldl_assembleStep_length :
    ∀ (l : List (Nat × BlockM)) (acc : List Nat),
      (List.foldl assembleStep acc l).length = acc.length := by
  intro l
  induction l with
  | nil => intro acc; rfl
  | cons p t ih =>
      intro acc
      rw [List.foldl_cons, ih]
      exact writeAt_length acc p.2.begin p.2.data

theorem writeAt_getD (arr : List Nat) (s : Nat) (d : List Nat) (pos : Nat)
    (hin : s + d.length ≤ arr.length) :
    (writeAt arr s d).getD pos 0 =
      if s ≤ pos ∧ pos < s + d.length then d.getD (pos - s) 0
      else arr.getD pos 0 := by
  rw [writeAt, if_pos hin]
  have hts : (arr.take s).length = s := by
    rw [List.length_take]
    omega
  by_cases h1 : pos < s
  · rw [if_neg (by omega)]
    rw [List.getD_eq_getElem?_getD, List.getD_eq_getElem?_getD, List.append_assoc,
      List.getElem?_append_left (show pos < (arr.take s).length by omega),
      List.getElem?_take_of_lt h1]
  · push_neg at h1
    by_cases h2 : pos < s + d.length
    · rw [if_pos ⟨h1, h2⟩]
      rw [List.getD_eq_getElem?_getD, List.getD_eq_getElem?_getD, List.append_assoc,
        List.getElem?_append_right (show (arr.take s).length ≤ pos by omega), hts,
        List.getElem?_append_left (show pos - s < d.length by omega)]
    · push_neg at h2
      rw [if_neg (by omega)]
      rw [List.getD_eq_getElem?_getD, List.getD_eq_getElem?_getD, List.append_assoc,
        List.getElem?_append_right (show (arr.take s).length ≤ pos by omega), hts,
        List.getElem?_append_right (show d.length ≤ pos - s by omega),
        List.getElem?_drop]
      have hidx : s + d.length + (pos - s - d.length) = pos := by omega
      rw [hidx]

theorem foldl_assembleStep_nocover :
    ∀ (l : List (Nat × BlockM)) (acc : List Nat) (pos : Nat),
      (∀ p ∈ l, p.2.begin + p.2.data.length ≤ acc.length →
        ¬(p.2.begin ≤ pos ∧ pos < p.2.begin + p.2.data.length)) →
      (List.foldl assembleStep acc l).getD pos 0 = acc.getD pos 0 := by
  intro l
  induction l with
  | nil => intro acc pos _; rfl
  | cons p t ih =>
      intro acc pos hno
      rw [List.foldl_cons]
      have hstep : (assembleStep acc p).getD pos 0 = acc.getD pos 0 := by
        rw [assembleStep]
        by_cases hin : p.2.begin + p.2.data.length ≤ acc.length
        · rw [writeAt_getD _ _ _ _ hin,
            if_neg (hno p (List.mem_cons_self p t) hin)]
        · rw [writeAt, if_neg hin]
      rw [← hstep]
      apply ih
      intro q hq
      rw [assembleStep, writeAt_length]
      exact hno q (List.mem_cons_of_mem p hq)

theorem foldl_assembleStep_unique :
    ∀ (l : List (Nat × BlockM)) (acc : List Nat) (pos : Nat) (e : Nat × BlockM),
      e ∈ l →
      e.2.begin + e.2.data.length ≤ acc.length →
      e.2.begin ≤ pos → pos < e.2.begin + e.2.data.length →
      (∀ p ∈ l, p.2.begin + p.2.data.length ≤ acc.length →
        p.2.begin ≤ pos → pos < p.2.begin + p.2.data.length → p = e) →
      (List.foldl assembleStep acc l).getD pos 0 =
        e.2.data.getD (pos - e.2.begin) 0 := by
  intro l
  induction l with
  | nil => intro acc pos e he; cases he
  | cons p t ih =>
      intro acc pos e he hin hle hlt huniq
      rw [List.foldl_cons]
      have hlen : (assembleStep acc p).length = acc.length := by
        rw [assembleStep, writeAt_length]
      by_cases het : e ∈ t
      · apply ih _ _ _ het (by omega) hle hlt
        intro q hq h1 h2 h3
        exact huniq q (List.mem_cons_of_mem p hq) (by omega) h2 h3
      · have hep : e = p := by
          rcases List.mem_cons.mp he with h | h
          · exact h
          · exact absurd h het
        have hwr : (assembleStep acc p).getD pos 0 =
            e.2.data.getD (pos - e.2.begin) 0 := by
          rw [assembleStep, ← hep, writeAt_getD _ _ _ _ hin, if_pos ⟨hle, hlt⟩]
        rw [← hwr]
        apply foldl_assembleStep_nocover
        intro q hq hqin hqcov
        have hqe : q = e :=
          huniq q (List.mem_cons_of_mem p hq) (by omega) hqcov.1 hqcov.2
        rw [hqe] at hq
        exact het hq

/-- C10: assemble is total and in-bounds.  For every buffer it returns
exactly total_size bytes; a position covered by no stored in-range
block (begin + length ≤ total_size) reads 0; a position whose in-range
coverer is unique reads that block's byte; blocks that do not fit are
silently discarded.  And since add_block counts a discarded block's
full length toward received_size, a concrete buffer (total size 2, one
block of 2 bytes at begin 1) reports complete while assembling to all
zeros. -/
theorem C10_assemble_safety :
    ∀ (buf : PieceBufferM),
      ((assemble buf).length = buf.total_size) ∧
      (∀ pos, (∀ p ∈ buf.blocks, p.2.begin + p.2.data.length ≤ buf.total_size →
          ¬(p.2.begin ≤ pos ∧ pos < p.2.begin + p.2.data.length)) →
        (assemble buf).getD pos 0 = 0) ∧
      (∀ pos e, e ∈ buf.blocks →
        e.2.begin + e.2.data.length ≤ buf.total_size →
        e.2.begin ≤ pos → pos < e.2.begin + e.2.data.length →
        (∀ p ∈ buf.blocks, p.2.begin + p.2.data.length ≤ buf.total_size →
          p.2.begin ≤ pos → pos < p.2.begin + p.2.data.length → p = e) →
        (assemble buf).getD pos 0 = e.2.data.getD (pos - e.2.begin) 0) ∧
      (is_complete (add_block (newPieceBuffer 2) (BlockM.mk 0 1 [7, 7])).1 = true ∧
        assemble (add_block (newPieceBuffer 2) (BlockM.mk 0 1 [7, 7])).1 = [0, 0]) := by
  intro buf
  have hrl : (List.replicate buf.total_size (0 : Nat)).length = buf.total_size := by
    simp
  refine ⟨?_, ?_, ?_, by decide⟩
  · rw [assemble, foldl_assembleStep_length, hrl]
  · intro pos hno
    rw [assemble, foldl_assembleStep_nocover _ _ _ (by rw [hrl]; exact hno)]
    rw [List.getD_eq_getElem?_getD, List.getElem?_replicate]
    split <;> rfl
  · intro pos e he hin hle hlt huniq
    rw [assemble]
    exact foldl_assembleStep_unique _ _ _ _ he (by rw [hrl]; exact hin) hle hlt
      (by rw [hrl]; exact huniq)

/-- C10 witness: a 3-byte buffer holding the single in-range block
begin 1 data [7] assembles to length 3, with byte 0 uncovered (0) and
byte 1 taken from the block. -/
theorem C10_assemble_safety_witness :
    (assemble (add_block (newPieceBuffer 3) (BlockM.mk 0 1 [7])).1).length = 3 ∧
    (assemble (add_block (newPieceBuffer 3) (BlockM.mk 0 1 [7])).1).getD 0 0 = 0 ∧
    (assemble (add_block (newPieceBuffer 3) (BlockM.mk 0 1 [7])).1).getD 1 0 =
      (1, BlockM.mk 0 1 [7]).2.data.getD (1 - (1, BlockM.mk 0 1 [7]).2.begin) 0 := by
  have h := C10_assemble_safety (add_block (newPieceBuffer 3) (BlockM.mk 0 1 [7])).1
  refine ⟨h.1.trans (by decide), h.2.1 0 (by decide), ?_⟩
  exact h.2.2.1 1 (1, BlockM.mk 0 1 [7]) (by decide) (by decide) (by decide)
    (by decide) (by decide)

/-! ## Claim C6: the block-receive loop of `Downloader::download_piece`

Incoming peer traffic is modelled as a list of already-decoded
`PeerMessage`s (wire.rs); `peer.receive_message()` takes the next
message from the list and fails (io error) when the list is exhausted.
The `stop_signal` and `ui_sender` fields are `None` (as built by
`Downloader::new`), so the stop-signal checks are no-ops.  Outbound
`Request` messages do not affect the loop and are not modelled. -/

inductive MsgM where
  | keepAlive
  | choke
  | unchoke
  | interested
  | notInterested
  | haveMsg (piece_index : Nat)
  | bitfield (bits : List Nat)
  | request (index begin length : Nat)
  | piece (index begin : Nat) (block : List Nat)
  | cancel (index begin length : Nat)
  | port (port : Nat)
deriving DecidableEq

/-- The four ways `download_piece`'s receive loop ends, each carrying
the number of messages received: `success` (the post-loop completeness
check passes, carrying the piece buffer), the incomplete-piece error,
the mid-piece-choke error, and a `receive_message` failure. -/
inductive PieceOutcome where
  | success (buf : PieceBufferM) (consumed : Nat)
  | incompleteErr (consumed : Nat)
  | chokeErr (consumed : Nat)
  | recvErr (consumed : Nat)
deriving DecidableEq

/-- Add one received message to an outcome's count. -/
def bumpOutcome : PieceOutcome → PieceOutcome
  | .success b n => .success b (n + 1)
  | .incompleteErr n => .incompleteErr (n + 1)
  | .chokeErr n => .chokeErr (n + 1)
  | .recvErr n => .recvErr (n + 1)

def consumedOf : PieceOutcome → Nat
  | .success _ n => n
  | .incompleteErr n => n
  | .chokeErr n => n
  | .recvErr n => n

/-- The receive loop of `Downloader::download_piece` (download.rs lines
270-324): while the buffer is incomplete and `blocks_received <
num_blocks * 2`, take a message; a `Piece` for this piece is inserted
(breaking out on completion, else counting it), a `Piece` for another
index is counted without insertion, `Choke` is fatal, `KeepAlive` and
all other messages are ignored without counting; leaving the loop
incomplete is the incomplete-piece error. -/
def downloadLoop (pi nb : Nat) : List MsgM → PieceBufferM → Nat → PieceOutcome
  | msgs, buf, br =>
    if is_complete buf then .success buf 0
    else if br < nb * 2 then
      match msgs with
      | [] => .recvErr 0
      | m :: rest =>
        match m with
        | .piece idx bg dat =>
            if idx = pi then
              if (add_block buf (BlockM.mk idx bg dat)).2 then
                .success (add_block buf (BlockM.mk idx bg dat)).1 1
              else
                bumpOutcome (downloadLoop pi nb rest
                  (add_block buf (BlockM.mk idx bg dat)).1 (br + 1))
            else bumpOutcome (downloadLoop pi nb rest buf (br + 1))
        | .choke => .chokeErr 1
        | .keepAlive => bumpOutcome (downloadLoop pi nb rest buf br)
        | _ => bumpOutcome (downloadLoop pi nb rest buf br)
    else .incompleteErr 0

/-- Number of `Piece`-type messages in a list. -/
def countPieceMsgs (l : List MsgM) : Nat :=
  l.countP (fun m => match m with | .piece _ _ _ => true | _ => false)

theorem consumedOf_bump (o : PieceOutcome) :
    consumedOf (bumpOutcome o) = consumedOf o + 1 := by
  cases o <;> rfl

/-- C6 counterexample: with one expected block (cap `num_blocks * 2 =
2`), a peer sending three KeepAlives before the block makes the loop
receive 4 messages — `blocks_received` counts only `Piece` messages, so
the loop is not bounded by twice the expected block count. -/
theorem C6_counterexample :
    downloadLoop 0 1
        [MsgM.keepAlive, MsgM.keepAlive, MsgM.keepAlive, MsgM.piece 0 0 [5]]
        (newPieceBuffer 1) 0 =
      PieceOutcome.success (PieceBufferM.mk [(0, BlockM.mk 0 0 [5])] 1 1) 4 ∧
    ¬ consumedOf (downloadLoop 0 1
        [MsgM.keepAlive, MsgM.keepAlive, MsgM.keepAlive, MsgM.piece 0 0 [5]]
        (newPieceBuffer 1) 0) ≤ 1 * 2 := by
  decide


theorem dl_step_complete (pi nb : Nat) (msgs : List MsgM) (buf : PieceBufferM)
    (br : Nat) (h1 : is_complete buf = true) :
    downloadLoop pi nb msgs buf br = PieceOutcome.success buf 0 := by
  rw [downloadLoop.eq_def]
  dsimp only []
  rw [if_pos h1]

theorem dl_step_capped (pi nb : Nat) (msgs : List MsgM) (buf : PieceBufferM)
    (br : Nat) (h1 : is_complete buf = false) (h2 : ¬ br < nb * 2) :
    downloadLoop pi nb msgs buf br = PieceOutcome.incompleteErr 0 := by
  rw [downloadLoop.eq_def]
  dsimp only []
  rw [if_neg (by simp [h1]), if_neg h2]

theorem dl_step_nil (pi nb : Nat) (buf : PieceBufferM) (br : Nat)
    (h1 : is_complete buf = false) (h2 : br < nb * 2) :
    downloadLoop pi nb [] buf br = PieceOutcome.recvErr 0 := by
  rw [downloadLoop, if_neg (by simp [h1]), if_pos h2]
  all_goals simp

theorem dl_step_choke (pi nb : Nat) (buf : PieceBufferM) (br : Nat)
    (rest : List MsgM) (h1 : is_complete buf = false) (h2 : br < nb * 2) :
    downloadLoop pi nb (MsgM.choke :: rest) buf br = PieceOutcome.chokeErr 1 := by
  rw [downloadLoop, if_neg (by simp [h1]), if_pos h2]
  all_goals simp

theorem dl_step_keepAlive (pi nb : Nat) (buf : PieceBufferM) (br : Nat)
    (rest : List MsgM) (h1 : is_complete buf = false) (h2 : br < nb * 2) :
    downloadLoop pi nb (MsgM.keepAlive :: rest) buf br =
      bumpOutcome (downloadLoop pi nb rest buf br) := by
  rw [downloadLoop, if_neg (by simp [h1]), if_pos h2]
  all_goals simp

theorem dl_step_unchoke (pi nb : Nat) (buf : PieceBufferM) (br : Nat)
    (rest : List MsgM) (h1 : is_complete buf = false) (h2 : br < nb * 2) :
    downloadLoop pi nb (MsgM.unchoke :: rest) buf br =
      bumpOutcome (downloadLoop pi nb rest buf br) := by
  rw [downloadLoop, if_neg (by simp [h1]), if_pos h2]
  all_goals simp

theorem dl_step_interested (pi nb : Nat) (buf : PieceBufferM) (br : Nat)
    (rest : List MsgM) (h1 : is_complete buf = false) (h2 : br < nb * 2) :
    downloadLoop pi nb (MsgM.interested :: rest) buf br =
      bumpOutcome (downloadLoop pi nb rest buf br) := by
  rw [downloadLoop, if_neg (by simp [h1]), if_pos h2]
  all_goals simp

theorem dl_step_notInterested (pi nb : Nat) (buf : PieceBufferM) (br : Nat)
    (rest : List MsgM) (h1 : is_complete buf = false) (h2 : br < nb * 2) :
    downloadLoop pi nb (MsgM.notInterested :: rest) buf br =
      bumpOutcome (downloadLoop pi nb rest buf br) := by
  rw [downloadLoop, if_neg (by simp [h1]), if_pos h2]
  all_goals simp

theorem dl_step_haveMsg (pi nb : Nat) (buf : PieceBufferM) (br : Nat)
    (i : Nat) (rest : List MsgM) (h1 : is_complete buf = false) (h2 : br < nb * 2) :
    downloadLoop pi nb (MsgM.haveMsg i :: rest) buf br =
      bumpOutcome (downloadLoop pi nb rest buf br) := by
  rw [downloadLoop, if_neg (by simp [h1]), if_pos h2]
  all_goals simp

theorem dl_step_bitfield (pi nb : Nat) (buf : PieceBufferM) (br : Nat)
    (bs : List Nat) (rest : List MsgM) (h1 : is_complete buf = false)
    (h2 : br < nb * 2) :
    downloadLoop pi nb (MsgM.bitfield bs :: rest) buf br =
      bumpOutcome (downloadLoop pi nb rest buf br) := by
  rw [downloadLoop, if_neg (by simp [h1]), if_pos h2]
  all_goals simp

theorem dl_step_request (pi nb : Nat) (buf : PieceBufferM) (br : Nat)
    (i b l : Nat) (rest : List MsgM) (h1 : is_complete buf = false)
    (h2 : br < nb * 2) :
    downloadLoop pi nb (MsgM.request i b l :: rest) buf br =
      bumpOutcome (downloadLoop pi nb rest buf br) := by
  rw [downloadLoop, if_neg (by simp [h1]), if_pos h2]
  all_goals simp

theorem dl_step_cancel (pi nb : Nat) (buf : PieceBufferM) (br : Nat)
    (i b l : Nat) (rest : List MsgM) (h1 : is_complete buf = false)
    (h2 : br < nb * 2) :
    downloadLoop pi nb (MsgM.cancel i b l :: rest) buf br =
      bumpOutcome (downloadLoop pi nb rest buf br) := by
  rw [downloadLoop, if_neg (by simp [h1]), if_pos h2]
  all_goals simp

theorem dl_step_port (pi nb : Nat) (buf : PieceBufferM) (br : Nat)
    (p : Nat) (rest : List MsgM) (h1 : is_complete buf = false)
    (h2 : br < nb * 2) :
    downloadLoop pi nb (MsgM.port p :: rest) buf br =
      bumpOutcome (downloadLoop pi nb rest buf br) := by
  rw [downloadLoop, if_neg (by simp [h1]), if_pos h2]
  all_goals simp

theorem dl_step_piece (pi nb : Nat) (buf : PieceBufferM) (br : Nat)
    (idx bg : Nat) (dat : List Nat) (rest : List MsgM)
    (h1 : is_complete buf = false) (h2 : br < nb * 2) :
    downloadLoop pi nb (MsgM.piece idx bg dat :: rest) buf br =
      (if idx = pi then
        if (add_block buf (BlockM.mk idx bg dat)).2 then
          PieceOutcome.success (add_block buf (BlockM.mk idx bg dat)).1 1
        else
          bumpOutcome (downloadLoop pi nb rest
            (add_block buf (BlockM.mk idx bg dat)).1 (br + 1))
      else bumpOutcome (downloadLoop pi nb rest buf (br + 1))) := by
  rw [downloadLoop, if_neg (by simp [h1]), if_pos h2]
  all_goals simp

/-- C6: corrected loop bound for `download_piece`'s receive loop.  The
counter `blocks_received` counts exactly the received `Piece`-type
messages (whatever their index), never `KeepAlive` or other message
types, so the loop only guarantees that `blocks_received` plus the
`Piece` messages in the consumed prefix stays within `num_blocks * 2`
— the total number of received messages is unbounded.  Additionally:
the loop stops immediately on a complete buffer, a mid-piece `Choke`
is fatal, `KeepAlive` is ignored without counting, a `Piece` for
another index is ignored but counted, and reaching the cap without
completion yields the incomplete-piece error. -/
theorem C6_receive_loop :
    ∀ (pi nb : Nat) (buf : PieceBufferM) (br : Nat), br ≤ nb * 2 →
      (∀ msgs, br + countPieceMsgs (List.take
          (consumedOf (downloadLoop pi nb msgs buf br)) msgs) ≤ nb * 2) ∧
      (∀ msgs, is_complete buf = true →
        downloadLoop pi nb msgs buf br = PieceOutcome.success buf 0) ∧
      (∀ rest, is_complete buf = false → br < nb * 2 →
        downloadLoop pi nb (MsgM.choke :: rest) buf br =
          PieceOutcome.chokeErr 1) ∧
      (∀ rest, is_complete buf = false → br < nb * 2 →
        downloadLoop pi nb (MsgM.keepAlive :: rest) buf br =
          bumpOutcome (downloadLoop pi nb rest buf br)) ∧
      (∀ rest idx bg dat, is_complete buf = false → br < nb * 2 → idx ≠ pi →
        downloadLoop pi nb (MsgM.piece idx bg dat :: rest) buf br =
          bumpOutcome (downloadLoop pi nb rest buf (br + 1))) ∧
      (∀ msgs, is_complete buf = false → ¬ br < nb * 2 →
        downloadLoop pi nb msgs buf br = PieceOutcome.incompleteErr 0) := by
  intro pi nb buf br hbr
  have cap : ∀ (msgs : List MsgM) (buf : PieceBufferM) (br : Nat), br ≤ nb * 2 →
      br + countPieceMsgs (List.take
        (consumedOf (downloadLoop pi nb msgs buf br)) msgs) ≤ nb * 2 := by
    intro msgs
    induction msgs with
    | nil =>
        intro buf br hbr
        by_cases h1 : is_complete buf = true
        · rw [dl_step_complete pi nb [] buf br h1]
          simpa [consumedOf, countPieceMsgs] using hbr
        · have h1f : is_complete buf = false := Bool.eq_false_iff.mpr h1
          by_cases h2 : br < nb * 2
          · rw [dl_step_nil pi nb buf br h1f h2]
            simpa [consumedOf, countPieceMsgs] using hbr
          · rw [dl_step_capped pi nb [] buf br h1f h2]
            simpa [consumedOf, countPieceMsgs] using hbr
    | cons m rest ih =>
        intro buf br hbr
        by_cases h1 : is_complete buf = true
        · rw [dl_step_complete pi nb (m :: rest) buf br h1]
          simpa [consumedOf, countPieceMsgs] using hbr
        · have h1f : is_complete buf = false := Bool.eq_false_iff.mpr h1
          by_cases h2 : br < nb * 2
          · cases m with
            | piece idx bg dat =>
                rw [dl_step_piece pi nb buf br idx bg dat rest h1f h2]
                by_cases h3 : idx = pi
                · rw [if_pos h3]
                  by_cases h4 : (add_block buf (BlockM.mk idx bg dat)).2 = true
                  · rw [if_pos h4]
                    have hcnt : countPieceMsgs (List.take (consumedOf
                        (PieceOutcome.success
                          (add_block buf (BlockM.mk idx bg dat)).1 1))
                        (MsgM.piece idx bg dat :: rest)) = 1 := by
                      simp [consumedOf, countPieceMsgs, List.countP_cons]
                    rw [hcnt]
                    omega
                  · rw [if_neg h4, consumedOf_bump, List.take_succ_cons]
                    have hx := ih (add_block buf (BlockM.mk idx bg dat)).1
                      (br + 1) (by omega)
                    have hcnt : countPieceMsgs (MsgM.piece idx bg dat ::
                        List.take (consumedOf (downloadLoop pi nb rest
                          (add_block buf (BlockM.mk idx bg dat)).1 (br + 1))) rest) =
                        countPieceMsgs (List.take (consumedOf (downloadLoop pi nb
                          rest (add_block buf (BlockM.mk idx bg dat)).1 (br + 1)))
                          rest) + 1 := by
                      simp [countPieceMsgs, List.countP_cons]
                    rw [hcnt]
                    omega
                · rw [if_neg h3, consumedOf_bump, List.take_succ_cons]
                  have hx := ih buf (br + 1) (by omega)
                  have hcnt : countPieceMsgs (MsgM.piece idx bg dat ::
                      List.take (consumedOf (downloadLoop pi nb rest buf (br + 1)))
                        rest) =
                      countPieceMsgs (List.take (consumedOf (downloadLoop pi nb
                        rest buf (br + 1))) rest) + 1 := by
                    simp [countPieceMsgs, List.countP_cons]
                  rw [hcnt]
                  omega
            | choke =>
                rw [dl_step_choke pi nb buf br rest h1f h2]
                have hcnt : countPieceMsgs (List.take
                    (consumedOf (PieceOutcome.chokeErr 1))
                    (MsgM.choke :: rest)) = 0 := by
                  simp [consumedOf, countPieceMsgs, List.countP_cons]
                rw [hcnt]
                omega
            | keepAlive =>
                rw [dl_step_keepAlive pi nb buf br rest h1f h2, consumedOf_bump,
                  List.take_succ_cons]
                have hx := ih buf br hbr
                have hcnt : countPieceMsgs (MsgM.keepAlive ::
                    List.take (consumedOf (downloadLoop pi nb rest buf br)) rest) =
                    countPieceMsgs (List.take (consumedOf
                      (downloadLoop pi nb rest buf br)) rest) := by
                  simp [countPieceMsgs, List.countP_cons]
                rw [hcnt]
                omega
            | unchoke =>
                rw [dl_step_unchoke pi nb buf br rest h1f h2, consumedOf_bump,
                  List.take_succ_cons]
                have hx := ih buf br hbr
                have hcnt : countPieceMsgs (MsgM.unchoke ::
                    List.take (consumedOf (downloadLoop pi nb rest buf br)) rest) =
                    countPieceMsgs (List.take (consumedOf
                      (downloadLoop pi nb rest buf br)) rest) := by
                  simp [countPieceMsgs, List.countP_cons]
                rw [hcnt]
                omega
            | interested =>
                rw [dl_step_interested pi nb buf br rest h1f h2, consumedOf_bump,
                  List.take_succ_cons]
                have hx := ih buf br hbr
                have hcnt : countPieceMsgs (MsgM.interested ::
                    List.take (consumedOf (downloadLoop pi nb rest buf br)) rest) =
                    countPieceMsgs (List.take (consumedOf
                      (downloadLoop pi nb rest buf br)) rest) := by
                  simp [countPieceMsgs, List.countP_cons]
                rw [hcnt]
                omega
            | notInterested =>
                rw [dl_step_notInterested pi nb buf br rest h1f h2, consumedOf_bump,
                  List.take_succ_cons]
                have hx := ih buf br hbr
                have hcnt : countPieceMsgs (MsgM.notInterested ::
                    List.take (consumedOf (downloadLoop pi nb rest buf br)) rest) =
                    countPieceMsgs (List.take (consumedOf
                      (downloadLoop pi nb rest buf br)) rest) := by
                  simp [countPieceMsgs, List.countP_cons]
                rw [hcnt]
                omega
            | haveMsg i =>
                rw [dl_step_haveMsg pi nb buf br i rest h1f h2, consumedOf_bump,
                  List.take_succ_cons]
                have hx := ih buf br hbr
                have hcnt : countPieceMsgs (MsgM.haveMsg i ::
                    List.take (consumedOf (downloadLoop pi nb rest buf br)) rest) =
                    countPieceMsgs (List.take (consumedOf
                      (downloadLoop pi nb rest buf br)) rest) := by
                  simp [countPieceMsgs, List.countP_cons]
                rw [hcnt]
                omega
            | bitfield bs =>
                rw [dl_step_bitfield pi nb buf br bs rest h1f h2, consumedOf_bump,
                  List.take_succ_cons]
                have hx := ih buf br hbr
                have hcnt : countPieceMsgs (MsgM.bitfield bs ::
                    List.take (consumedOf (downloadLoop pi nb rest buf br)) rest) =
                    countPieceMsgs (List.take (consumedOf
                      (downloadLoop pi nb rest buf br)) rest) := by
                  simp [countPieceMsgs, List.countP_cons]
                rw [hcnt]
                omega
            | request i b l =>
                rw [dl_step_request pi nb buf br i b l rest h1f h2, consumedOf_bump,
                  List.take_succ_cons]
                have hx := ih buf br hbr
                have hcnt : countPieceMsgs (MsgM.request i b l ::
                    List.take (consumedOf (downloadLoop pi nb rest buf br)) rest) =
                    countPieceMsgs (List.take (consumedOf
                      (downloadLoop pi nb rest buf br)) rest) := by
                  simp [countPieceMsgs, List.countP_cons]
                rw [hcnt]
                omega
            | cancel i b l =>
                rw [dl_step_cancel pi nb buf br i b l rest h1f h2, consumedOf_bump,
                  List.take_succ_cons]
                have hx := ih buf br hbr
                have hcnt : countPieceMsgs (MsgM.cancel i b l ::
                    List.take (consumedOf (downloadLoop pi nb rest buf br)) rest) =
                    countPieceMsgs (List.take (consumedOf
                      (downloadLoop pi nb rest buf br)) rest) := by
                  simp [countPieceMsgs, List.countP_cons]
                rw [hcnt]
                omega
            | port p =>
                rw [dl_step_port pi nb buf br p rest h1f h2, consumedOf_bump,
                  List.take_succ_cons]
                have hx := ih buf br hbr
                have hcnt : countPieceMsgs (MsgM.port p ::
                    List.take (consumedOf (downloadLoop pi nb rest buf br)) rest) =
                    countPieceMsgs (List.take (consumedOf
                      (downloadLoop pi nb rest buf br)) rest) := by
                  simp [countPieceMsgs, List.countP_cons]
                rw [hcnt]
                omega
          · rw [dl_step_capped pi nb (m :: rest) buf br h1f h2]
            simpa [consumedOf, countPieceMsgs] using hbr
  refine ⟨fun msgs => cap msgs buf br hbr, ?_, ?_, ?_, ?_, ?_⟩
  · intro msgs h1
    exact dl_step_complete pi nb msgs buf br h1
  · intro rest h1 h2
    exact dl_step_choke pi nb buf br rest h1 h2
  · intro rest h1 h2
    exact dl_step_keepAlive pi nb buf br rest h1 h2
  · intro rest idx bg dat h1 h2 h3
    rw [dl_step_piece pi nb buf br idx bg dat rest h1 h2, if_neg h3]
  · intro msgs h1 h2
    exact dl_step_capped pi nb msgs buf br h1 h2

/-- C6 witness: the loop properties at piece 0 with one expected
block. -/
theorem C6_receive_loop_witness :
    (0 + countPieceMsgs (List.take
      (consumedOf (downloadLoop 0 1 [MsgM.keepAlive] (newPieceBuffer 1) 0))
      [MsgM.keepAlive]) ≤ 1 * 2) ∧
    downloadLoop 0 1 [] (newPieceBuffer 0) 0 =
      PieceOutcome.success (newPieceBuffer 0) 0 ∧
    downloadLoop 0 1 [MsgM.choke] (newPieceBuffer 1) 0 =
      PieceOutcome.chokeErr 1 ∧
    downloadLoop 0 1 [MsgM.keepAlive] (newPieceBuffer 1) 0 =
      bumpOutcome (downloadLoop 0 1 [] (newPieceBuffer 1) 0) ∧
    downloadLoop 0 1 [MsgM.piece 5 0 [1]] (newPieceBuffer 1) 0 =
      bumpOutcome (downloadLoop 0 1 [] (newPieceBuffer 1) (0 + 1)) ∧
    downloadLoop 0 1 [] (newPieceBuffer 1) 2 =
      PieceOutcome.incompleteErr 0 := by
  have h := C6_receive_loop 0 1 (newPieceBuffer 1) 0 (by decide)
  have h0 := C6_receive_loop 0 1 (newPieceBuffer 0) 0 (by decide)
  have hc := C6_receive_loop 0 1 (newPieceBuffer 1) 2 (by decide)
  exact ⟨h.1 [MsgM.keepAlive], h0.2.1 [] (by decide),
    h.2.2.1 [] (by decide) (by decide),
    h.2.2.2.1 [] (by decide) (by decide),
    h.2.2.2.2.1 [] 5 0 [1] (by decide) (by decide) (by decide),
    hc.2.2.2.2.2 [] (by decide) (by decide)⟩

/-! ## Claim C9: downloads with no Bitfield message (download.rs)

`Downloader` restricted to the fields the piece-availability logic
reads: `torrent.info.pieces.len()`, `peer_bitfield` and `peer_choked`
(`Downloader::new` starts with `peer_bitfield = None`, `peer_choked =
true`).  `download_piece` inside `download`'s loop is abstracted as an
oracle `dp` returning the new state or an error; the claim's scenario
fails before it is ever called.  `stop_signal` and `ui_sender` are
`None` as in `Downloader::new`. -/

structure DownloaderM where
  numPieces : Nat
  peer_bitfield : Option (List Nat)
  peer_choked : Bool
deriving DecidableEq

/-- `Downloader::can_download_piece`. -/
def can_download_piece (d : DownloaderM) (piece_index : Nat) : Bool :=
  match d.peer_bitfield with
  | some bitfield =>
      let byte_index := piece_index / 8
      let bit_index := 7 - piece_index % 8
      if byte_index < bitfield.length then
        ((bitfield.getD byte_index 0) >>> bit_index) &&& 1 == 1
      else false
  | none => false

/-- `Downloader::update_peer_has_piece`. -/
def update_peer_has_piece (d : DownloaderM) (piece_index : Nat) : DownloaderM :=
  match d.peer_bitfield with
  | some bitfield =>
      let byte_index := piece_index / 8
      let bit_index := 7 - piece_index % 8
      let updated :=
        bitfield.set byte_index ((bitfield.getD byte_index 0) ||| (1 <<< bit_index))
      if byte_index < bitfield.length then
        { d with peer_bitfield := some updated }
      else d
  | none => d

/-- `Downloader::handle_initial_messages`: up to 10 messages are
consumed (a read failure — exhausted list — is `none`); `Bitfield`
replaces the stored bitfield, `Unchoke` clears `peer_choked` and
breaks, `Choke` sets it, `Have` goes through `update_peer_has_piece`,
everything else is ignored.  Returns the new state and the unread
tail. -/
def handle_initial_messages :
    List MsgM → Nat → DownloaderM → Option (DownloaderM × List MsgM)
  | msgs, counter, d =>
    if counter < 10 then
      match msgs with
      | [] => none
      | m :: rest =>
        match m with
        | MsgM.bitfield bits =>
            handle_initial_messages rest (counter + 1)
              { d with peer_bitfield := some bits }
        | MsgM.unchoke => some ({ d with peer_choked := false }, rest)
        | MsgM.choke =>
            handle_initial_messages rest (counter + 1)
              { d with peer_choked := true }
        | MsgM.haveMsg i =>
            handle_initial_messages rest (counter + 1)
              (update_peer_has_piece d i)
        | MsgM.keepAlive => handle_initial_messages rest (counter + 1) d
        | MsgM.interested => handle_initial_messages rest (counter + 1) d
        | MsgM.notInterested => handle_initial_messages rest (counter + 1) d
        | MsgM.request _ _ _ => handle_initial_messages rest (counter + 1) d
        | MsgM.piece _ _ _ => handle_initial_messages rest (counter + 1) d
        | MsgM.cancel _ _ _ => handle_initial_messages rest (counter + 1) d
        | MsgM.port _ => handle_initial_messages rest (counter + 1) d
    else some (d, msgs)

inductive DownloadResult where
  | ok
  | recvFailed
  | neverUnchoked
  | missingPiece (i : Nat)
  | pieceFailed (i : Nat)
deriving DecidableEq

/-- The `for piece_index in 0..pieces.len()` loop of
`Downloader::download`, with `download_piece` as the oracle `dp`. -/
def loopPieces (dp : DownloaderM → Nat → Option DownloaderM) :
    Nat → Nat → DownloaderM → DownloadResult
  | 0, _, _ => DownloadResult.ok
  | r + 1, i, d =>
    if can_download_piece d i then
      match dp d i with
      | some d2 => loopPieces dp r (i + 1) d2
      | none => DownloadResult.pieceFailed i
    else DownloadResult.missingPiece i

/-- `Downloader::download`: initial-message handling, the
never-unchoked check, then the piece loop. -/
def downloadRun (dp : DownloaderM → Nat → Option DownloaderM)
    (msgs : List MsgM) (d : DownloaderM) : DownloadResult :=
  match handle_initial_messages msgs 0 d with
  | none => DownloadResult.recvFailed
  | some (d1, _) =>
      if d1.peer_choked then DownloadResult.neverUnchoked
      else loopPieces dp d1.numPieces 0 d1

def isBitfieldMsg : MsgM → Bool
  | MsgM.bitfield _ => true
  | _ => false

theorem update_none (d : DownloaderM) (i : Nat) (h : d.peer_bitfield = none) :
    update_peer_has_piece d i = d := by
  rw [update_peer_has_piece, h]

theorem can_none (d : DownloaderM) (i : Nat) (h : d.peer_bitfield = none) :
    can_download_piece d i = false := by
  rw [can_download_piece, h]

theorem hi_preserves_none :
    ∀ (msgs : List MsgM) (counter : Nat) (d d1 : DownloaderM) (rest : List MsgM),
      d.peer_bitfield = none →
      List.all msgs (fun m => !isBitfieldMsg m) = true →
      handle_initial_messages msgs counter d = some (d1, rest) →
      d1.peer_bitfield = none ∧ d1.numPieces = d.numPieces := by
  intro msgs
  induction msgs with
  | nil =>
      intro counter d d1 rest hnone hall heq
      rw [handle_initial_messages] at heq
      by_cases hc : counter < 10
      · rw [if_pos hc] at heq
        cases heq
      · rw [if_neg hc] at heq
        injection heq with h
        injection h with h1 h2
        rw [← h1]
        exact ⟨hnone, rfl⟩
  | cons m rest0 ih =>
      intro counter d d1 rest hnone hall heq
      rw [List.all_cons, Bool.and_eq_true] at hall
      obtain ⟨hm, hrest⟩ := hall
      cases m with
      | bitfield bits => simp [isBitfieldMsg] at hm
      | unchoke =>
          rw [handle_initial_messages] at heq
          by_cases hc : counter < 10
          · rw [if_pos hc] at heq
            injection heq with h
            injection h with h1 h2
            rw [← h1]
            exact ⟨hnone, rfl⟩
          · rw [if_neg hc] at heq
            injection heq with h
            injection h with h1 h2
            rw [← h1]
            exact ⟨hnone, rfl⟩
      | choke =>
          rw [handle_initial_messages] at heq
          by_cases hc : counter < 10
          · rw [if_pos hc] at heq
            exact ih (counter + 1) { d with peer_choked := true } d1 rest hnone
              hrest heq
          · rw [if_neg hc] at heq
            injection heq with h
            injection h with h1 h2
            rw [← h1]
            exact ⟨hnone, rfl⟩
      | haveMsg i =>
          rw [handle_initial_messages] at heq
          by_cases hc : counter < 10
          · rw [if_pos hc, update_none d i hnone] at heq
            exact ih (counter + 1) d d1 rest hnone hrest heq
          · rw [if_neg hc] at heq
            injection heq with h
            injection h with h1 h2
            rw [← h1]
            exact ⟨hnone, rfl⟩
      | keepAlive =>
          rw [handle_initial_messages] at heq
          by_cases hc : counter < 10
          · rw [if_pos hc] at heq
            exact ih (counter + 1) d d1 rest hnone hrest heq
          · rw [if_neg hc] at heq
            injection heq with h
            injection h with h1 h2
            rw [← h1]
            exact ⟨hnone, rfl⟩
      | interested =>
          rw [handle_initial_messages] at heq
          by_cases hc : counter < 10
          · rw [if_pos hc] at heq
            exact ih (counter + 1) d d1 rest hnone hrest heq
          · rw [if_neg hc] at heq
            injection heq with h
            injection h with h1 h2
            rw [← h1]
            exact ⟨hnone, rfl⟩
      | notInterested =>
          rw [handle_initial_messages] at heq
          by_cases hc : counter < 10
          · rw [if_pos hc] at heq
            exact ih (counter + 1) d d1 rest hnone hrest heq
          · rw [if_neg hc] at heq
            injection heq with h
            injection h with h1 h2
            rw [← h1]
            exact ⟨hnone, rfl⟩
      | request i b l =>
          rw [handle_initial_messages] at heq
          by_cases hc : counter < 10
          · rw [if_pos hc] at heq
            exact ih (counter + 1) d d1 rest hnone hrest heq
          · rw [if_neg hc] at heq
            injection heq with h
            injection h with h1 h2
            rw [← h1]
            exact ⟨hnone, rfl⟩
      | piece i b l =>
          rw [handle_initial_messages] at heq
          by_cases hc : counter < 10
          · rw [if_pos hc] at heq
            exact ih (counter + 1) d d1 rest hnone hrest heq
          · rw [if_neg hc] at heq
            injection heq with h
            injection h with h1 h2
            rw [← h1]
            exact ⟨hnone, rfl⟩
      | cancel i b l =>
          rw [handle_initial_messages] at heq
          by_cases hc : counter < 10
          · rw [if_pos hc] at heq
            exact ih (counter + 1) d d1 rest hnone hrest heq
          · rw [if_neg hc] at heq
            injection heq with h
            injection h with h1 h2
            rw [← h1]
            exact ⟨hnone, rfl⟩
      | port p =>
          rw [handle_initial_messages] at heq
          by_cases hc : counter < 10
          · rw [if_pos hc] at heq
            exact ih (counter + 1) d d1 rest hnone hrest heq
          · rw [if_neg hc] at heq
            injection heq with h
            injection h with h1 h2
            rw [← h1]
            exact ⟨hnone, rfl⟩

/-- C9: when no Bitfield message has arrived (`peer_bitfield` is
`None`), every `Have(i)` is silently discarded by
`update_peer_has_piece` and `can_download_piece` is false for every
index; consequently for a torrent with at least one piece, a download
whose initial-message exchange contains no Bitfield (but does reach an
Unchoke) fails with the peer-missing-piece error for piece 0, whatever
`download_piece` would have done. -/
theorem C9_no_bitfield_failure :
    ∀ (d : DownloaderM), d.peer_bitfield = none →
      (∀ i, update_peer_has_piece d i = d) ∧
      (∀ i, can_download_piece d i = false) ∧
      (∀ (dp : DownloaderM → Nat → Option DownloaderM) (msgs : List MsgM)
        (d1 : DownloaderM) (rest : List MsgM),
        List.all msgs (fun m => !isBitfieldMsg m) = true →
        0 < d.numPieces →
        handle_initial_messages msgs 0 d = some (d1, rest) →
        d1.peer_choked = false →
        downloadRun dp msgs d = DownloadResult.missingPiece 0) := by
  intro d hnone
  refine ⟨fun i => update_none d i hnone, fun i => can_none d i hnone, ?_⟩
  intro dp msgs d1 rest hall hnp heq hunch
  obtain ⟨h1, h2⟩ := hi_preserves_none msgs 0 d d1 rest hnone hall heq
  have hrun : downloadRun dp msgs d =
      if d1.peer_choked then DownloadResult.neverUnchoked
      else loopPieces dp d1.numPieces 0 d1 := by
    rw [downloadRun, heq]
  rw [hrun, if_neg (by simp [hunch])]
  obtain ⟨r, hr⟩ : ∃ r, d1.numPieces = r + 1 := ⟨d1.numPieces - 1, by omega⟩
  rw [hr, loopPieces, can_none d1 0 h1]
  simp

/-- C9 witness: one piece, no bitfield, a Have(0) then Unchoke — the
download still reports piece 0 as missing. -/
theorem C9_no_bitfield_failure_witness :
    update_peer_has_piece (DownloaderM.mk 1 none true) 3 =
      DownloaderM.mk 1 none true ∧
    can_download_piece (DownloaderM.mk 1 none true) 0 = false ∧
    downloadRun (fun _ _ => none) [MsgM.haveMsg 0, MsgM.unchoke]
      (DownloaderM.mk 1 none true) = DownloadResult.missingPiece 0 := by
  have h := C9_no_bitfield_failure (DownloaderM.mk 1 none true) rfl
  exact ⟨h.1 3, h.2.1 0,
    h.2.2 (fun _ _ => none) [MsgM.haveMsg 0, MsgM.unchoke]
      (DownloaderM.mk 1 none false) [] (by decide) (by decide) (by decide) rfl⟩
